import Mathlib

/-!
LinearHash: a linear-hashing table (`linear_hash_table.go`).

Shallow embedding of the Go program and theorems about it.

Conventions of the embedding

* A Go `string` key is its byte sequence.
* `int` and `uint` are the 64-bit types.  `hashFunc` wraps modulo `2^64` and
  reinterprets the word as a signed integer, exactly as the code does.  The
  counters `recordNum`, `i` and list lengths are mathematical integers: making
  them wrap would take `2^62` directory slots or `2^63` insertions.
* A chain is the list of its segments from the head; the `nextBucket` link of
  a segment is the tail of the list, and a `nil` pointer is the empty list.
* A run-time failure (index out of range, nil dereference, failed type
  assertion, division by zero) is the result `none`.
-/

set_option autoImplicit false

namespace LinearHash

/-! ## Data model -/

/-- A Go string, as its bytes. -/
abbrev Key := List (Fin 256)

/-- An `interface{}` value stored under a key: `nil`, or some dynamic value
(abstracted to a tag). -/
inductive Value where
  | nil : Value
  | dyn (tag : Nat) : Value
  deriving DecidableEq, Repr

/-- The struct `Record`. -/
structure Record where
  Key : Key
  Value : Value
  deriving DecidableEq, Repr

/-- What a `list.List` element of a segment holds (`Element.Value`, an
`interface{}`): a `Record`, or a pointer to a list element (the merge branch of
`Bucket.Delete` pushes the element `e` itself, not `e.Value`). -/
inductive Item where
  | record (r : Record) : Item
  | element (target : Item) : Item
  deriving DecidableEq, Repr

/-- The struct `Bucket` without its link: one segment of a chain. -/
structure Bucket where
  maxBucketRecords : Int
  records : List Item
  deriving DecidableEq, Repr

/-- A `*Bucket` together with everything reachable through `nextBucket`. -/
abbrev Chain := List Bucket

/-- The struct `LinearHt`. -/
structure LinearHt where
  i : Int
  recordNum : Int
  maxBucketRecords : Int
  buckets : List Chain
  deriving DecidableEq, Repr

/-! ## Machine arithmetic -/

/-- Conversion `int(u)` of a 64-bit unsigned word. -/
def toInt64 (u : Nat) : Int :=
  if u < 2 ^ 63 then (u : Int) else (u : Int) - 2 ^ 64

/-- Go's `%` on integers: the remainder of the division truncated toward zero,
whose sign is that of the dividend. -/
def goMod (a b : Int) : Int := Int.tmod a b

/-- The number of bits of `N` beyond 53: the least `s` with `N / 2^s < 2^53`
(the first argument bounds the number of halvings). -/
def excessBits : Nat → Nat → Nat
  | 0, _ => 0
  | fuel + 1, N => if N < 2 ^ 53 then 0 else excessBits fuel (N / 2) + 1

/-- Round a natural number to the nearest one with a 53-bit significand, ties
to even: the IEEE-754 binary64 rounding of a value scaled by a power of two. -/
def roundF64 (N : Nat) : Nat :=
  let s := excessBits N N
  let q := N / 2 ^ s
  let r := N % 2 ^ s
  if 2 ^ s < 2 * r ∨ (2 * r = 2 ^ s ∧ q % 2 = 1) then (q + 1) * 2 ^ s else q * 2 ^ s

/-- The integer part of the binary64 product `float64(n) * c` for the binary64
constant `c = mant / 2^scale`, `n` below `2^53`. -/
def f64MulTrunc (n mant scale : Nat) : Nat := roundF64 (n * mant) / 2 ^ scale

/-- `int(math.Floor(float64(n) * 1.7))`: the binary64 nearest to 1.7 is
`7656119366529843 / 2^52`. -/
def growthBound (n : Nat) : Int := (f64MulTrunc n 7656119366529843 52 : Nat)

/-- `int(float64(m) * 0.7)`: the binary64 nearest to 0.7 is
`6305039478318694 / 2^53`; the conversion truncates toward zero. -/
def mergeThreshold (m : Int) : Int :=
  if 0 ≤ m then (f64MulTrunc m.toNat 6305039478318694 53 : Nat)
  else -((f64MulTrunc (-m).toNat 6305039478318694 53 : Nat) : Int)

/-- `int(math.Pow(2, float64(e)))`.  A negative exponent gives a fraction, which
converts to 0; from `2^63` on the conversion is out of range and yields the
smallest integer (the amd64 result). -/
def powTwo (e : Int) : Int :=
  if e < 0 then 0 else if e ≤ 62 then 2 ^ e.toNat else -(2 ^ 63)

/-- Wrap-around of a 64-bit signed result. -/
def wrap64 (x : Int) : Int := toInt64 (x % 2 ^ 64).toNat

/-! ## `hashFunc` -/

/-- One round of the loop: `hash = ((hash << 5) + hash) + uint(key[i])`. -/
def hashStep (hash : Nat) (b : Fin 256) : Nat :=
  (((hash <<< 5) % 2 ^ 64 + hash) % 2 ^ 64 + b.val) % 2 ^ 64

/-- The function `hashFunc`. -/
def hashFunc (key : Key) : Int := toInt64 (key.foldl hashStep 5381)

/-! ## Chains -/

/-- The function `newBucket`. -/
def newBucket (maxBucketRecords : Int) : Bucket :=
  { maxBucketRecords := maxBucketRecords, records := [] }

/-- The method `Bucket.Insert` on the chain headed by the receiver.  The
result is the chain afterwards and the position in it of the returned segment.
Stepping past a full segment without successor is a nil dereference.  The
segment that receives the record gets a fresh successor when it becomes full,
whatever followed it before. -/
def Bucket.Insert : Chain → Item → Option (Chain × Nat)
  | [], _ => none
  | b :: rest, record =>
    if b.maxBucketRecords ≤ (b.records.length : Int) then
      match Bucket.Insert rest record with
      | none => none
      | some (rest2, k) => some (b :: rest2, k + 1)
    else
      let b2 : Bucket := { b with records := b.records ++ [record] }
      if b2.maxBucketRecords ≤ (b2.records.length : Int) then
        some ([b2, newBucket b2.maxBucketRecords], 1)
      else some (b2 :: rest, 0)

/-- The inner loop of `Bucket.Delete` up to the removal: `none` is a failed
type assertion, `some none` means no record of the segment has the key,
`some (some rs)` is the record list after the first match was removed. -/
def Bucket.removeKey : List Item → Key → Option (Option (List Item))
  | [], _ => some none
  | Item.element _ :: _, _ => none
  | Item.record r :: t, key =>
    if r.Key = key then some (some t)
    else
      match Bucket.removeKey t key with
      | none => none
      | some none => some none
      | some (some t2) => some (some (Item.record r :: t2))

/-- The loop of `Bucket.Delete` once `prev` is set: `prev` is the segment
before the current one, the list holds the current segment and its successors.
The result is the chain from `prev` on and the returned flag. -/
def Bucket.DeleteFrom : Bucket → Chain → Key → Option (Chain × Bool)
  | prev, [], _ => some ([prev], false)
  | prev, b :: rest, key =>
    match Bucket.removeKey b.records key with
    | none => none
    | some none =>
      match Bucket.DeleteFrom b rest key with
      | none => none
      | some (c, removed) => some (prev :: c, removed)
    | some (some rs) =>
      if rs.length = 0 then some (prev :: rest, true)
      else if (prev.records.length : Int) + (rs.length : Int)
          < mergeThreshold b.maxBucketRecords then
        some ({ prev with records := prev.records ++ rs.map Item.element } :: rest, true)
      else some (prev :: { b with records := rs } :: rest, true)

/-- The method `Bucket.Delete` on the chain headed by the receiver: the chain
afterwards and the returned flag. -/
def Bucket.Delete : Chain → Key → Option (Chain × Bool)
  | [], _ => some ([], false)
  | b :: rest, key =>
    match Bucket.removeKey b.records key with
    | none => none
    | some (some rs) => some ({ b with records := rs } :: rest, true)
    | some none => Bucket.DeleteFrom b rest key

/-- The inner loop of `Bucket.Find`: `none` is a failed type assertion,
`some none` means the segment has no record with the key. -/
def Bucket.findRecords : List Item → Key → Option (Option Value)
  | [], _ => some none
  | Item.element _ :: _, _ => none
  | Item.record r :: t, key =>
    if r.Key = key then some (some r.Value) else Bucket.findRecords t key

/-- The method `Bucket.Find` on the chain headed by the receiver. -/
def Bucket.Find : Chain → Key → Option Value
  | [], _ => some Value.nil
  | b :: rest, key =>
    match Bucket.findRecords b.records key with
    | none => none
    | some (some v) => some v
    | some none => Bucket.Find rest key

/-- All items of a chain, in segment order. -/
def Chain.items (c : Chain) : List Item := (c.map Bucket.records).flatten

/-- The loop of `BucketRecords`: the sum of `records.Len()` over the segments. -/
def Chain.recordCount (c : Chain) : Int := ((c.map fun b => (b.records.length : Int))).sum

/-! ## The table -/

/-- The least power of two that is at least `n`, searched upward from `p`
(the first argument bounds the number of doublings). -/
def ceilPow2From : Nat → Nat → Nat → Nat
  | 0, p, _ => p
  | fuel + 1, p, n => if n ≤ p then p else ceilPow2From fuel (2 * p) n

/-- `int(math.Pow(2, math.Ceil(math.Log2(float64(n)))))`: the least power of
two that is at least `n`, which the binary64 computation gives for every small
`n`; `math.Log2(0)` is `-Inf`, whose power is 0. -/
def ceilPow2 (n : Nat) : Nat := if n = 0 then 0 else ceilPow2From n 1 n

/-- The function `newLinearHt`, for a non-negative `bucketNum`. -/
def newLinearHt (bucketNum : Nat) : LinearHt :=
  { i := (ceilPow2 bucketNum : Nat)
    recordNum := 0
    maxBucketRecords := 2
    buckets := List.replicate bucketNum [newBucket 2] }

/-- The method `BucketNum`. -/
def LinearHt.BucketNum (lh : LinearHt) : Int := lh.buckets.length

/-- The method `RecordNum`. -/
def LinearHt.RecordNum (lh : LinearHt) : Int := lh.recordNum

/-- The indexing `lh.buckets[idx]`. -/
def LinearHt.bucketAt (lh : LinearHt) (idx : Int) : Option Chain :=
  if 0 ≤ idx then lh.buckets[idx.toNat]? else none

/-- The index computation of `Find` and `Insert`:
`bucketIdx := hashFunc(key) % lh.i`, lowered by `lh.i >> 1` when it is above
`len(lh.buckets)-1`. -/
def LinearHt.bucketIdx (lh : LinearHt) (key : Key) : Option Int :=
  if lh.i = 0 then none
  else
    let bucketIdx := goMod (hashFunc key) lh.i
    some (if (lh.buckets.length : Int) - 1 < bucketIdx then bucketIdx - lh.i / 2 else bucketIdx)

/-- The index computation of `Delete`: `bucketIdx := hashFunc(key) % lh.i`,
lowered by `int(math.Pow(2, float64(lh.i-1)))` when it is above
`len(lh.buckets)`. -/
def LinearHt.deleteIdx (lh : LinearHt) (key : Key) : Option Int :=
  if lh.i = 0 then none
  else
    let bucketIdx := goMod (hashFunc key) lh.i
    some (if (lh.buckets.length : Int) < bucketIdx then wrap64 (bucketIdx - powTwo (lh.i - 1))
      else bucketIdx)

/-- The method `LinearHt.Find`. -/
def LinearHt.Find (lh : LinearHt) (key : Key) : Option Value :=
  match lh.bucketIdx key with
  | none => none
  | some idx =>
    match lh.bucketAt idx with
    | none => none
    | some c => Bucket.Find c key

/-- State of the redistribution in `Expand`: the new chain and the chain that
replaces the split one, each with the position of the segment its handle
(`nBucket`, `nMoveBucket`) points at. -/
structure ExpandSt where
  nChain : Chain
  nPos : Nat
  nMoveChain : Chain
  nMovePos : Nat
  deriving DecidableEq, Repr

/-- The call `h = h.Insert(v)` through a handle at position `p` of chain `c`. -/
def insertAt (c : Chain) (p : Nat) (v : Item) : Option (Chain × Nat) :=
  match Bucket.Insert (c.drop p) v with
  | none => none
  | some (c2, k) => some (c.take p ++ c2, p + k)

/-- The inner loop of `Expand` over the records of one segment of the detached
chain. -/
def Expand.segment (i newIdx : Int) : List Item → ExpandSt → Option ExpandSt
  | [], st => some st
  | Item.element _ :: _, _ => none
  | Item.record r :: t, st =>
    if i = 0 then none
    else if goMod (hashFunc r.Key) i = newIdx then
      match insertAt st.nChain st.nPos (Item.record r) with
      | none => none
      | some (c, p) => Expand.segment i newIdx t { st with nChain := c, nPos := p }
    else
      match insertAt st.nMoveChain st.nMovePos (Item.record r) with
      | none => none
      | some (c, p) => Expand.segment i newIdx t { st with nMoveChain := c, nMovePos := p }

/-- The outer loop of `Expand`: it handles a segment, stops when the segment
holds fewer than `maxBucketRecords` records and otherwise moves to the
successor. -/
def Expand.walk (i newIdx : Int) : Chain → ExpandSt → Option ExpandSt
  | [], _ => none
  | b :: rest, st =>
    match Expand.segment i newIdx b.records st with
    | none => none
    | some st2 =>
      if (b.records.length : Int) < b.maxBucketRecords then some st2
      else Expand.walk i newIdx rest st2

/-- The method `LinearHt.Expand`. -/
def LinearHt.Expand (lh : LinearHt) : Option LinearHt :=
  let nBucket := newBucket lh.maxBucketRecords
  let newIdx : Int := lh.buckets.length
  let i := if lh.i = newIdx then lh.i * 2 else lh.i
  let buckets := lh.buckets ++ [[nBucket]]
  let moveIdx := newIdx - i / 2
  let nMoveBucket := newBucket lh.maxBucketRecords
  if 0 ≤ moveIdx then
    match buckets[moveIdx.toNat]? with
    | none => none
    | some moveBucket =>
      match Expand.walk i newIdx moveBucket
          { nChain := [nBucket], nPos := 0, nMoveChain := [nMoveBucket], nMovePos := 0 } with
      | none => none
      | some st =>
        some { lh with
          i := i
          buckets := (buckets.set lh.buckets.length st.nChain).set moveIdx.toNat st.nMoveChain }
  else none

/-- The second half of `LinearHt.Insert`: the index computation and the
insertion into the addressed chain. -/
def LinearHt.place (lh : LinearHt) (record : Record) : Option LinearHt :=
  match lh.bucketIdx record.Key with
  | none => none
  | some idx =>
    match lh.bucketAt idx with
    | none => none
    | some c =>
      match Bucket.Insert c (Item.record record) with
      | none => none
      | some (c2, _) => some { lh with buckets := lh.buckets.set idx.toNat c2 }

/-- The table after `lh.recordNum++`. -/
def LinearHt.counted (lh : LinearHt) : LinearHt :=
  { lh with recordNum := lh.recordNum + 1 }

/-- The growth test of `LinearHt.Insert`, made after the increment:
`int(math.Floor(float64(len(lh.buckets))*1.7)) < lh.recordNum`. -/
def LinearHt.mustExpand (lh : LinearHt) : Prop :=
  growthBound lh.buckets.length < lh.recordNum

instance (lh : LinearHt) : Decidable lh.mustExpand := by
  unfold LinearHt.mustExpand; infer_instance

/-- The method `LinearHt.Insert`. -/
def LinearHt.Insert (lh : LinearHt) (record : Record) : Option LinearHt :=
  if lh.counted.mustExpand then
    match lh.counted.Expand with
    | none => none
    | some lh2 => lh2.place record
  else lh.counted.place record

/-- The method `LinearHt.Delete`. -/
def LinearHt.Delete (lh : LinearHt) (key : Key) : Option LinearHt :=
  match lh.deleteIdx key with
  | none => none
  | some idx =>
    match lh.bucketAt idx with
    | none => none
    | some c =>
      match Bucket.Delete c key with
      | none => none
      | some (c2, removed) =>
        some { lh with
          buckets := lh.buckets.set idx.toNat c2
          recordNum := if removed then lh.recordNum - 1 else lh.recordNum }

/-- The method `BucketRecords`. -/
def LinearHt.BucketRecords (lh : LinearHt) (i : Int) : Option Int :=
  if (lh.buckets.length : Int) - 1 < i then some (-1)
  else
    match lh.bucketAt i with
    | none => none
    | some c => some c.recordCount

/-! ## Runs of calls -/

/-- A call of one of the three state-changing methods of the table. -/
inductive Call where
  | Insert (record : Record) : Call
  | Delete (key : Key) : Call
  | Expand : Call
  deriving DecidableEq, Repr

/-- One call on a table. -/
def LinearHt.call (lh : LinearHt) : Call → Option LinearHt
  | Call.Insert record => lh.Insert record
  | Call.Delete key => lh.Delete key
  | Call.Expand => lh.Expand

/-- A sequence of calls, each on the table the previous one left; the run is
`none` as soon as a call fails. -/
def LinearHt.calls : LinearHt → List Call → Option LinearHt
  | lh, [] => some lh
  | lh, c :: cs =>
    match lh.call c with
    | none => none
    | some lh2 => lh2.calls cs

/-- A table state reached from `newLinearHt(2)` by calls of `Insert`, `Delete`
and `Expand`. -/
def Reached (lh : LinearHt) : Prop :=
  ∃ cs : List Call, (newLinearHt 2).calls cs = some lh

/-! ## Properties named by the specification -/

/-- `p` is the smallest power of two that is at least `n`. -/
def IsLeastPowerOfTwoGE (p : Int) (n : Nat) : Prop :=
  ∃ k : Nat, p = 2 ^ k ∧ n ≤ 2 ^ k ∧ ∀ j : Nat, n ≤ 2 ^ j → 2 ^ k ≤ 2 ^ j

/-- Every segment of the chain except the last holds exactly `capacity`
records. -/
def Chain.NonLastFull (capacity : Int) (c : Chain) : Prop :=
  ∀ b ∈ c.dropLast, (b.records.length : Int) = capacity

instance (capacity : Int) (c : Chain) : Decidable (Chain.NonLastFull capacity c) := by
  unfold Chain.NonLastFull; infer_instance

/-! ## Sample data -/

/-- The record with the one-byte key `b` and the value tag `v`. -/
def rec1 (b : Fin 256) (v : Nat) : Record := { Key := [b], Value := Value.dyn v }

/-- The key made of eleven bytes `z`. -/
def keyZ11 : Key := List.replicate 11 122

/-- A segment of capacity 2 holding the given records. -/
def seg (rs : List Record) : Bucket :=
  { maxBucketRecords := 2, records := rs.map Item.record }

/-- The table after the inserts of `a`, `b`, `c`, `d`. -/
def tableABCD : LinearHt :=
  { i := 4, recordNum := 4, maxBucketRecords := 2
    buckets := [[seg [rec1 99 3]], [seg [rec1 98 2, rec1 100 4], seg []], [seg [rec1 97 1]]] }

/-- The table after the inserts of `a`, `c`, `e` and the deletion of `a`. -/
def tableCE : LinearHt :=
  { i := 2, recordNum := 2, maxBucketRecords := 2
    buckets := [[seg [rec1 99 2], seg [rec1 101 3]], [seg []]] }

/-- The table `tableCE` after the insert of `b`. -/
def tableCEB : LinearHt :=
  { i := 2, recordNum := 3, maxBucketRecords := 2
    buckets := [[seg [rec1 99 2], seg [rec1 101 3]], [seg [rec1 98 4]]] }

/-- The table `tableCE` after the insert of `g`. -/
def tableCG : LinearHt :=
  { i := 2, recordNum := 3, maxBucketRecords := 2
    buckets := [[seg [rec1 99 2, rec1 103 4], seg []], [seg []]] }

/-- The table `tableCEB` after `recordNum++` and `Expand`. -/
def tableCB : LinearHt :=
  { i := 4, recordNum := 4, maxBucketRecords := 2
    buckets := [[seg [rec1 99 2]], [seg [rec1 98 4]], [seg []]] }

/-- The calls that insert the one-byte keys `a` to `g` in order. -/
def insertsAG : List Call :=
  [Call.Insert (rec1 97 1), Call.Insert (rec1 98 2), Call.Insert (rec1 99 3),
   Call.Insert (rec1 100 4), Call.Insert (rec1 101 5), Call.Insert (rec1 102 6),
   Call.Insert (rec1 103 7)]

/-- The table after the inserts of `a`, `b`, `c`. -/
def tableABC : LinearHt :=
  { i := 2, recordNum := 3, maxBucketRecords := 2
    buckets := [[seg [rec1 97 1, rec1 99 3], seg []], [seg [rec1 98 2]]] }

/-- The key made of twelve bytes `a`. -/
def keyA12 : Key := List.replicate 12 97

/-- The relation between the level and the directory length that every
operation keeps: the level is a power of two, the directory is no longer than
the level and longer than half of it. -/
def LevelOK (lh : LinearHt) : Prop :=
  ∃ k : Nat, lh.i = ((2 ^ k : Nat) : Int) ∧ lh.buckets.length ≤ 2 ^ k ∧
    2 ^ k < 2 * lh.buckets.length

/-- Every item of the list is a `Record`. -/
def OnlyRecords (l : List Item) : Prop := ∀ x ∈ l, ∃ r : Record, x = Item.record r

/-- A chain as `Insert` and `Expand` build it: segments of capacity `m` that
hold records only, each one full except the last, which is not full. -/
def Chain.Packed (m : Int) : Chain → Prop
  | [] => False
  | [b] => b.maxBucketRecords = m ∧ (b.records.length : Int) < m ∧ OnlyRecords b.records
  | b :: c :: rest =>
    b.maxBucketRecords = m ∧ (b.records.length : Int) = m ∧ OnlyRecords b.records ∧
      Chain.Packed m (c :: rest)

/-- A state of the redistribution whose two chains are packed and whose handles
point at their last segments. -/
def ExpandSt.Good (m : Int) (st : ExpandSt) : Prop :=
  Chain.Packed m st.nChain ∧ st.nPos + 1 = st.nChain.length ∧
    Chain.Packed m st.nMoveChain ∧ st.nMovePos + 1 = st.nMoveChain.length

/-- A table with a positive segment capacity, a level that fits the directory
and packed chains: what `newLinearHt` builds and `Insert` keeps. -/
def LinearHt.WF (lh : LinearHt) : Prop :=
  0 < lh.maxBucketRecords ∧ LevelOK lh ∧ ∀ c ∈ lh.buckets, Chain.Packed lh.maxBucketRecords c

/-- The accumulation that the specification describes: start from 5381 and,
for each byte `b` of the key in order, replace `h` by `(33*h + b) mod 2^64`. -/
def times33 (key : Key) : Nat :=
  key.foldl (fun h b => (33 * h + b.val) % 2 ^ 64) 5381

/-- The specification of `hashFunc`: the word of `times33` read as a signed
two's-complement 64-bit integer. -/
def hashSpec (key : Key) : Int :=
  if times33 key < 2 ^ 63 then (times33 key : Int) else (times33 key : Int) - 2 ^ 64

/-- The key made of ten bytes `a` and one byte `c`. -/
def keyA10C : Key := List.replicate 10 97 ++ [99]

/-- The table after the inserts of `a`, `c`, `e` and the deletion of `e`. -/
def tableAC : LinearHt :=
  { i := 2, recordNum := 2, maxBucketRecords := 2
    buckets := [[seg [rec1 97 1, rec1 99 2]], [seg []]] }

/-- A call of `Insert` or `Delete` on the head of a chain. -/
inductive BucketCall where
  | Insert (record : Record) : BucketCall
  | Delete (key : Key) : BucketCall
  deriving DecidableEq, Repr

/-- One call on the head of a chain: the chain afterwards. -/
def Bucket.call (c : Chain) : BucketCall → Option Chain
  | BucketCall.Insert record => (Bucket.Insert c (Item.record record)).map Prod.fst
  | BucketCall.Delete key => (Bucket.Delete c key).map Prod.fst

/-- A sequence of calls on the head of a chain; `none` as soon as one fails. -/
def Bucket.calls : Chain → List BucketCall → Option Chain
  | c, [] => some c
  | c, x :: xs =>
    match Bucket.call c x with
    | none => none
    | some c2 => Bucket.calls c2 xs

/-- The item, when it is a record, has the directory index `idx` as the index
that `Find` computes for its key. -/
def Item.AddressedAt (lh : LinearHt) (idx : Nat) : Item → Prop
  | Item.record r => lh.bucketIdx r.Key = some (idx : Int)
  | Item.element _ => True

instance (lh : LinearHt) (idx : Nat) (x : Item) : Decidable (Item.AddressedAt lh idx x) := by
  cases x <;> unfold Item.AddressedAt <;> infer_instance

/-- Every stored record lies in the chain whose index `Find` computes for its
key. -/
def LinearHt.Addressed (lh : LinearHt) : Prop :=
  ∀ idx, idx < lh.buckets.length →
    ∀ x ∈ Chain.items (lh.buckets.getD idx []), Item.AddressedAt lh idx x

instance (lh : LinearHt) : Decidable lh.Addressed := by
  unfold LinearHt.Addressed; infer_instance

/-- Every segment of the chain that holds as many records as its capacity has
a successor segment. -/
def Chain.FullHasNext : Chain → Prop
  | [] => True
  | b :: rest =>
    ((b.records.length : Int) = b.maxBucketRecords → rest ≠ []) ∧ Chain.FullHasNext rest

/-- Decision procedure for `Chain.FullHasNext`. -/
def Chain.decFullHasNext : (c : Chain) → Decidable (Chain.FullHasNext c)
  | [] => isTrue trivial
  | b :: rest =>
    have : Decidable (Chain.FullHasNext rest) := Chain.decFullHasNext rest
    by unfold Chain.FullHasNext; exact inferInstance

instance (c : Chain) : Decidable (Chain.FullHasNext c) := Chain.decFullHasNext c

/-- The table after the insert of the record with key `keyA10C`. -/
def tableN : LinearHt :=
  { i := 2, recordNum := 1, maxBucketRecords := 2
    buckets := [[seg [{ Key := keyA10C, Value := Value.dyn 1 }]], [seg []]] }

/-- The table `tableN` after `Expand`. -/
def tableNE : LinearHt :=
  { i := 4, recordNum := 1, maxBucketRecords := 2
    buckets := [[seg [{ Key := keyA10C, Value := Value.dyn 1 }]], [seg []], [seg []]] }

/-- A segment of capacity 3 holding the given items. -/
def seg3 (items : List Item) : Bucket := { maxBucketRecords := 3, records := items }

/-- The chain of capacity 3 with an empty head segment followed by a segment
that holds the records with keys 4 and 5. -/
def chain45 : Chain :=
  [seg3 [], seg3 [Item.record (rec1 4 4), Item.record (rec1 5 5)]]

/-- The chain `chain45` after `Delete` of the key 4: one segment, holding a
list element that points at the record with key 5. -/
def chainE5 : Chain := [seg3 [Item.element (Item.record (rec1 5 5))]]

/-- The record that an item is, when it is one. -/
def Item.asRecord : Item → Option Record
  | Item.record r => some r
  | Item.element _ => none

/-- The records of a chain in chain order: segments from the head, records in
list order within a segment. -/
def Chain.recordList (c : Chain) : List Record := c.items.filterMap Item.asRecord

/-- The first record with the given key in chain order. -/
def Chain.firstRecord (c : Chain) (key : Key) : Option Record :=
  c.recordList.find? (fun r => decide (r.Key = key))

/-- The value that a first-match scan returns: the value of the first record
with the key, `nil` when there is none. -/
def Chain.firstValue (c : Chain) (key : Key) : Value :=
  match c.firstRecord key with
  | some r => r.Value
  | none => Value.nil

/-- The table after the inserts of the key `a` with a nil value and then with
the value 1. -/
def tableDup : LinearHt :=
  { i := 2, recordNum := 2, maxBucketRecords := 2
    buckets := [[seg [{ Key := [97], Value := Value.nil }, rec1 97 1], seg []], [seg []]] }

/-- The value `moveIdx` of `Expand`, the split index: the old directory length
minus half of the level after the doubling test. -/
def LinearHt.moveIdx (lh : LinearHt) : Int :=
  (lh.buckets.length : Int)
    - (if lh.i = (lh.buckets.length : Int) then lh.i * 2 else lh.i) / 2

/-- The table after the inserts of `c`, `e`, `g` and the deletion of `g`. -/
def tableCEfull : LinearHt :=
  { i := 2, recordNum := 2, maxBucketRecords := 2
    buckets := [[seg [rec1 99 1, rec1 101 2]], [seg []]] }

/-- What `Bucket.Delete` does about a key: it finds no record with it, or it
removes the record and then keeps the segment, or splices the emptied segment
out, or merges the segment into its predecessor. -/
inductive DeleteBranch where
  | absent : DeleteBranch
  | kept : DeleteBranch
  | spliced : DeleteBranch
  | merged : DeleteBranch
  deriving DecidableEq, Repr

/-- The branch that the loop of `Bucket.Delete` takes once `prev` is set; it
follows `Bucket.DeleteFrom` test by test. -/
def Bucket.DeleteFromBranch : Bucket → Chain → Key → Option DeleteBranch
  | _, [], _ => some DeleteBranch.absent
  | prev, b :: rest, key =>
    match Bucket.removeKey b.records key with
    | none => none
    | some none => Bucket.DeleteFromBranch b rest key
    | some (some rs) =>
      if rs.length = 0 then some DeleteBranch.spliced
      else if (prev.records.length : Int) + (rs.length : Int)
          < mergeThreshold b.maxBucketRecords then
        some DeleteBranch.merged
      else some DeleteBranch.kept

/-- The branch that `Bucket.Delete` takes; it follows `Bucket.Delete` test by
test.  In the head segment `prev` is nil and neither the splice nor the merge
applies. -/
def Bucket.DeleteBranch : Chain → Key → Option DeleteBranch
  | [], _ => some DeleteBranch.absent
  | b :: rest, key =>
    match Bucket.removeKey b.records key with
    | none => none
    | some (some _) => some DeleteBranch.kept
    | some none => Bucket.DeleteFromBranch b rest key

/-- The table `tableABC` after `recordNum++` and `Expand`. -/
def tableABCexp : LinearHt :=
  { i := 4, recordNum := 4, maxBucketRecords := 2
    buckets := [[seg [rec1 99 3]], [seg [rec1 98 2]], [seg [rec1 97 1]]] }

/-! ## Structural facts about the operations -/

theorem Expand_fields (lh lh2 : LinearHt) (h : lh.Expand = some lh2) :
    lh2.i = (if lh.i = (lh.buckets.length : Int) then lh.i * 2 else lh.i) ∧
    lh2.buckets.length = lh.buckets.length + 1 ∧
    lh2.recordNum = lh.recordNum ∧ lh2.maxBucketRecords = lh.maxBucketRecords := by
  unfold LinearHt.Expand at h
  simp only [] at h
  repeat' split at h
  all_goals first
    | contradiction
    | (cases h; simp [*])

theorem place_fields (lh lh2 : LinearHt) (record : Record) (h : lh.place record = some lh2) :
    lh2.i = lh.i ∧ lh2.buckets.length = lh.buckets.length ∧
    lh2.recordNum = lh.recordNum ∧ lh2.maxBucketRecords = lh.maxBucketRecords := by
  unfold LinearHt.place at h
  split at h
  · exact absurd h (by simp)
  · split at h
    · exact absurd h (by simp)
    · split at h
      · exact absurd h (by simp)
      · cases h
        simp

theorem Delete_fields (lh lh2 : LinearHt) (key : Key) (h : lh.Delete key = some lh2) :
    lh2.i = lh.i ∧ lh2.buckets.length = lh.buckets.length ∧
    lh2.maxBucketRecords = lh.maxBucketRecords := by
  unfold LinearHt.Delete at h
  split at h
  · exact absurd h (by simp)
  · split at h
    · exact absurd h (by simp)
    · split at h
      · exact absurd h (by simp)
      · cases h
        simp

/-- What `Insert` does when it completes: the counter goes up by one, then
`Expand` runs once if the growth test holds and not at all otherwise, then the
record is placed. -/
theorem Insert_some (lh lh2 : LinearHt) (record : Record) (h : lh.Insert record = some lh2) :
    (lh.counted.mustExpand ∧
      ∃ lhE, lh.counted.Expand = some lhE ∧ lhE.place record = some lh2) ∨
    (¬ lh.counted.mustExpand ∧ lh.counted.place record = some lh2) := by
  unfold LinearHt.Insert at h
  by_cases hg : lh.counted.mustExpand
  · rw [if_pos hg] at h
    left
    refine ⟨hg, ?_⟩
    cases hE : lh.counted.Expand with
    | none => rw [hE] at h; exact absurd h (by simp)
    | some lhE => rw [hE] at h; exact ⟨lhE, rfl, h⟩
  · rw [if_neg hg] at h
    exact Or.inr ⟨hg, h⟩

/-! ## The level invariant -/

theorem LevelOK_new : LevelOK (newLinearHt 2) :=
  ⟨1, by decide, by decide, by decide⟩

theorem LevelOK_of_fields (lh lh2 : LinearHt) (h : LevelOK lh) (hi : lh2.i = lh.i)
    (hl : lh2.buckets.length = lh.buckets.length) : LevelOK lh2 := by
  obtain ⟨k, h1, h2, h3⟩ := h
  exact ⟨k, by rw [hi, h1], by rw [hl]; exact h2, by rw [hl]; exact h3⟩

theorem LevelOK_Expand (lh lh2 : LinearHt) (h : LevelOK lh) (hE : lh.Expand = some lh2) :
    LevelOK lh2 := by
  obtain ⟨k, h1, h2, h3⟩ := h
  obtain ⟨hi, hl, -, -⟩ := Expand_fields lh lh2 hE
  by_cases hc : lh.i = (lh.buckets.length : Int)
  · rw [if_pos hc] at hi
    have hlen : lh.buckets.length = 2 ^ k := by
      have : ((lh.buckets.length : Nat) : Int) = ((2 ^ k : Nat) : Int) := by rw [← hc, h1]
      exact_mod_cast this
    refine ⟨k + 1, ?_, ?_, ?_⟩
    · rw [hi, h1, pow_succ]; push_cast; ring
    · rw [hl, hlen, pow_succ]
      have : 1 ≤ 2 ^ k := Nat.one_le_two_pow
      omega
    · rw [hl, hlen, pow_succ]; omega
  · rw [if_neg hc] at hi
    have hne : lh.buckets.length ≠ 2 ^ k := by
      intro he
      apply hc
      rw [h1, he]
    refine ⟨k, by rw [hi, h1], ?_, ?_⟩
    · rw [hl]; omega
    · rw [hl]; omega

theorem LevelOK_Insert (lh lh2 : LinearHt) (record : Record) (h : LevelOK lh)
    (hI : lh.Insert record = some lh2) : LevelOK lh2 := by
  have hc : LevelOK lh.counted := LevelOK_of_fields lh lh.counted h rfl rfl
  rcases Insert_some lh lh2 record hI with ⟨-, lhE, hE, hp⟩ | ⟨-, hp⟩
  · obtain ⟨hi, hl, -, -⟩ := place_fields lhE lh2 record hp
    exact LevelOK_of_fields lhE lh2 (LevelOK_Expand lh.counted lhE hc hE) hi hl
  · obtain ⟨hi, hl, -, -⟩ := place_fields lh.counted lh2 record hp
    exact LevelOK_of_fields lh.counted lh2 hc hi hl

theorem LevelOK_call (lh lh2 : LinearHt) (c : Call) (h : LevelOK lh)
    (hc : lh.call c = some lh2) : LevelOK lh2 := by
  cases c with
  | Insert record => exact LevelOK_Insert lh lh2 record h hc
  | Delete key =>
    obtain ⟨hi, hl, -⟩ := Delete_fields lh lh2 key hc
    exact LevelOK_of_fields lh lh2 h hi hl
  | Expand => exact LevelOK_Expand lh lh2 h hc

theorem LevelOK_calls (cs : List Call) (lh lh2 : LinearHt) (h : LevelOK lh)
    (hc : lh.calls cs = some lh2) : LevelOK lh2 := by
  induction cs generalizing lh with
  | nil =>
    simp only [LinearHt.calls, Option.some.injEq] at hc
    rw [← hc]; exact h
  | cons c cs ih =>
    unfold LinearHt.calls at hc
    cases hstep : lh.call c with
    | none => rw [hstep] at hc; contradiction
    | some lh1 =>
      rw [hstep] at hc
      exact ih lh1 (LevelOK_call lh lh1 c h hstep) hc

theorem LevelOK_least (lh : LinearHt) (h : LevelOK lh) :
    IsLeastPowerOfTwoGE lh.i lh.buckets.length := by
  obtain ⟨k, h1, h2, h3⟩ := h
  refine ⟨k, by rw [h1]; push_cast; rfl, h2, ?_⟩
  intro j hj
  have hlt : 2 ^ k < 2 ^ (j + 1) := by
    rw [pow_succ]; omega
  have hkj : k < j + 1 := (Nat.pow_lt_pow_iff_right (by decide)).mp hlt
  exact Nat.pow_le_pow_right (by decide) (by omega)

/-- C9.  Level invariant: in the table created by `newLinearHt(2)` and in every
state reached from it by calls of `Insert`, `Expand` and `Delete`, the level
`i` is the smallest power of two that is at least `len(buckets)`. -/
theorem level_is_least_power_of_two (lh : LinearHt) (h : Reached lh) :
    IsLeastPowerOfTwoGE lh.i lh.buckets.length := by
  obtain ⟨cs, hcs⟩ := h
  exact LevelOK_least lh (LevelOK_calls cs (newLinearHt 2) lh LevelOK_new hcs)

/-- The level invariant at the table reached by inserting `a`, `b`, `c`, `d`:
level 4 for three directory slots. -/
theorem level_is_least_power_of_two_witness :
    Reached tableABCD ∧ IsLeastPowerOfTwoGE tableABCD.i tableABCD.buckets.length :=
  ⟨⟨[Call.Insert (rec1 97 1), Call.Insert (rec1 98 2), Call.Insert (rec1 99 3),
      Call.Insert (rec1 100 4)], by decide⟩,
   level_is_least_power_of_two tableABCD
    ⟨[Call.Insert (rec1 97 1), Call.Insert (rec1 98 2), Call.Insert (rec1 99 3),
      Call.Insert (rec1 100 4)], by decide⟩⟩

/-! ## Insertion into packed chains -/

theorem Packed_cons_cons (m : Int) (b c : Bucket) (rest : Chain) :
    Chain.Packed m (b :: c :: rest) ↔
      (b.maxBucketRecords = m ∧ (b.records.length : Int) = m ∧ OnlyRecords b.records ∧
        Chain.Packed m (c :: rest)) := by
  simp [Chain.Packed]

theorem Packed_single (m : Int) (b : Bucket) :
    Chain.Packed m [b] ↔
      (b.maxBucketRecords = m ∧ (b.records.length : Int) < m ∧ OnlyRecords b.records) := by
  simp [Chain.Packed]

theorem OnlyRecords_append_record (l : List Item) (r : Record) (h : OnlyRecords l) :
    OnlyRecords (l ++ [Item.record r]) := by
  intro x hx
  rcases List.mem_append.mp hx with hx | hx
  · exact h x hx
  · exact ⟨r, by simpa using hx⟩

theorem Packed_newBucket (m : Int) (hm : 0 < m) : Chain.Packed m [newBucket m] := by
  rw [Packed_single]
  refine ⟨rfl, by simpa [newBucket] using hm, ?_⟩
  intro x hx
  simp [newBucket] at hx

/-- On a packed chain `Bucket.Insert` completes, the chain stays packed and the
returned segment is the last one. -/
theorem Bucket_Insert_packed (m : Int) (hm : 0 < m) (r : Record) (c : Chain)
    (h : Chain.Packed m c) :
    ∃ c2 k, Bucket.Insert c (Item.record r) = some (c2, k) ∧ Chain.Packed m c2 ∧
      k + 1 = c2.length := by
  induction c with
  | nil => exact absurd h (by simp [Chain.Packed])
  | cons b c ih =>
    cases c with
    | nil =>
      rw [Packed_single] at h
      obtain ⟨hb, hlen, hrec⟩ := h
      have hnot : ¬ b.maxBucketRecords ≤ (b.records.length : Int) := by omega
      by_cases hfull : b.maxBucketRecords ≤ ((b.records ++ [Item.record r]).length : Int)
      · refine ⟨[{ b with records := b.records ++ [Item.record r] },
          newBucket b.maxBucketRecords], 1, ?_, ?_, rfl⟩
        · simp only [Bucket.Insert, if_neg hnot, if_pos hfull]
        · rw [Packed_cons_cons]
          refine ⟨hb, ?_, OnlyRecords_append_record _ r hrec, ?_⟩
          · simp only [List.length_append, List.length_singleton] at hfull ⊢
            push_cast at hfull ⊢
            omega
          · rw [hb]; exact Packed_newBucket m hm
      · refine ⟨[{ b with records := b.records ++ [Item.record r] }], 0, ?_, ?_, rfl⟩
        · simp only [Bucket.Insert, if_neg hnot, if_neg hfull]
        · rw [Packed_single]
          refine ⟨hb, ?_, OnlyRecords_append_record _ r hrec⟩
          simp only [List.length_append, List.length_singleton] at hfull ⊢
          push_cast at hfull ⊢
          omega
    | cons c1 rest =>
      rw [Packed_cons_cons] at h
      obtain ⟨hb, hlen, hrec, hrest⟩ := h
      obtain ⟨c2, k, hins, hp, hk⟩ := ih hrest
      have hfull : b.maxBucketRecords ≤ (b.records.length : Int) := by omega
      refine ⟨b :: c2, k + 1, ?_, ?_, by simp [hk]⟩
      · rw [Bucket.Insert, if_pos hfull, hins]
      · cases c2 with
        | nil => simp at hk
        | cons d rest2 =>
          rw [Packed_cons_cons]
          exact ⟨hb, hlen, hrec, hp⟩

/-- The same through a handle that points at the last segment. -/
theorem insertAt_packed (m : Int) (hm : 0 < m) (r : Record) (c : Chain) (p : Nat)
    (h : Chain.Packed m c) (hp : p + 1 = c.length) :
    ∃ c2 p2, insertAt c p (Item.record r) = some (c2, p2) ∧ Chain.Packed m c2 ∧
      p2 + 1 = c2.length := by
  induction c generalizing p with
  | nil => exact absurd h (by simp [Chain.Packed])
  | cons b c ih =>
    cases c with
    | nil =>
      have hp0 : p = 0 := by simpa using hp
      subst hp0
      obtain ⟨c2, k, hins, hpk, hk⟩ := Bucket_Insert_packed m hm r [b] h
      refine ⟨c2, k, ?_, hpk, hk⟩
      simp [insertAt, hins]
    | cons c1 rest =>
      rw [Packed_cons_cons] at h
      obtain ⟨hb, hlen, hrec, hrest⟩ := h
      cases p with
      | zero => simp at hp
      | succ q =>
        have hq : q + 1 = (c1 :: rest).length := by simpa using hp
        obtain ⟨c2, p2, hins, hpk, hk⟩ := ih q hrest hq
        unfold insertAt at hins
        cases hB : Bucket.Insert (List.drop q (c1 :: rest)) (Item.record r) with
        | none => rw [hB] at hins; contradiction
        | some res =>
          obtain ⟨c3, k⟩ := res
          rw [hB] at hins
          simp only [Option.some.injEq, Prod.mk.injEq] at hins
          obtain ⟨hc, hpp⟩ := hins
          refine ⟨b :: c2, p2 + 1, ?_, ?_, by simp [hk]⟩
          · simp only [insertAt, List.drop_succ_cons, hB, List.take_succ_cons, List.cons_append,
              Option.some.injEq, Prod.mk.injEq]
            exact ⟨by rw [hc], by omega⟩
          · cases c2 with
            | nil => simp at hk
            | cons d rest2 =>
              rw [Packed_cons_cons]
              exact ⟨hb, hlen, hrec, hpk⟩

/-! ## `Expand` and `Insert` on well-formed tables -/

theorem Expand_segment_good (m : Int) (hm : 0 < m) (i newIdx : Int) (hi : i ≠ 0)
    (l : List Item) (hl : OnlyRecords l) (st : ExpandSt) (hst : st.Good m) :
    ∃ st2, Expand.segment i newIdx l st = some st2 ∧ st2.Good m := by
  induction l generalizing st with
  | nil => exact ⟨st, rfl, hst⟩
  | cons x t ih =>
    obtain ⟨r, hx⟩ := hl x (List.mem_cons_self x t)
    subst hx
    have ht : OnlyRecords t := fun y hy => hl y (List.mem_cons_of_mem _ hy)
    obtain ⟨h1, h2, h3, h4⟩ := hst
    by_cases hc : goMod (hashFunc r.Key) i = newIdx
    · obtain ⟨c2, p2, hins, hp, hk⟩ := insertAt_packed m hm r st.nChain st.nPos h1 h2
      obtain ⟨st2, hseg, hgood⟩ :=
        ih ht { st with nChain := c2, nPos := p2 } ⟨hp, hk, h3, h4⟩
      exact ⟨st2, by simp only [Expand.segment, if_neg hi, if_pos hc, hins, hseg], hgood⟩
    · obtain ⟨c2, p2, hins, hp, hk⟩ :=
        insertAt_packed m hm r st.nMoveChain st.nMovePos h3 h4
      obtain ⟨st2, hseg, hgood⟩ :=
        ih ht { st with nMoveChain := c2, nMovePos := p2 } ⟨h1, h2, hp, hk⟩
      exact ⟨st2, by simp only [Expand.segment, if_neg hi, if_neg hc, hins, hseg], hgood⟩

theorem Expand_walk_good (m : Int) (hm : 0 < m) (i newIdx : Int) (hi : i ≠ 0)
    (c : Chain) (hc : Chain.Packed m c) (st : ExpandSt) (hst : st.Good m) :
    ∃ st2, Expand.walk i newIdx c st = some st2 ∧ st2.Good m := by
  induction c generalizing st with
  | nil => exact absurd hc (by simp [Chain.Packed])
  | cons b c ih =>
    cases c with
    | nil =>
      rw [Packed_single] at hc
      obtain ⟨hb, hlen, hrec⟩ := hc
      obtain ⟨st2, hseg, hgood⟩ := Expand_segment_good m hm i newIdx hi b.records hrec st hst
      have hlt : (b.records.length : Int) < b.maxBucketRecords := by omega
      exact ⟨st2, by simp only [Expand.walk, hseg, if_pos hlt], hgood⟩
    | cons c1 rest =>
      rw [Packed_cons_cons] at hc
      obtain ⟨hb, hlen, hrec, hrest⟩ := hc
      obtain ⟨st2, hseg, hgood⟩ := Expand_segment_good m hm i newIdx hi b.records hrec st hst
      obtain ⟨st3, hwalk, hgood3⟩ := ih hrest st2 hgood
      have hnlt : ¬ (b.records.length : Int) < b.maxBucketRecords := by omega
      refine ⟨st3, ?_, hgood3⟩
      rw [Expand.walk, hseg]
      simp only [if_neg hnlt]
      exact hwalk

/-- On a well-formed table `Expand` completes and leaves a well-formed table. -/
theorem Expand_WF (lh : LinearHt) (h : lh.WF) : ∃ lh2, lh.Expand = some lh2 ∧ lh2.WF := by
  obtain ⟨hm, hlev, hch⟩ := h
  obtain ⟨k, h1, h2, h3⟩ := id hlev
  have hpow : 1 ≤ 2 ^ k := Nat.one_le_two_pow
  generalize 2 ^ k = P at h1 h2 h3 hpow
  -- the level after the doubling test, and the split index
  have hi2 : ∃ i2 : Int, (if lh.i = (lh.buckets.length : Int) then lh.i * 2 else lh.i) = i2 ∧
      i2 ≠ 0 ∧ 0 ≤ (lh.buckets.length : Int) - i2 / 2 ∧
      ((lh.buckets.length : Int) - i2 / 2).toNat < lh.buckets.length := by
    by_cases hc : lh.i = (lh.buckets.length : Int)
    · refine ⟨lh.i * 2, by rw [if_pos hc], ?_, ?_, ?_⟩
      · omega
      · omega
      · omega
    · refine ⟨lh.i, by rw [if_neg hc], ?_, ?_, ?_⟩
      · omega
      · omega
      · omega
  obtain ⟨i2, hi2eq, hi2ne, hmv0, hmvlt⟩ := hi2
  have hget : (lh.buckets ++ [[newBucket lh.maxBucketRecords]])[
      ((lh.buckets.length : Int) - i2 / 2).toNat]? =
      some (lh.buckets[((lh.buckets.length : Int) - i2 / 2).toNat]) := by
    rw [List.getElem?_append_left hmvlt, List.getElem?_eq_getElem hmvlt]
  have hmove : Chain.Packed lh.maxBucketRecords
      (lh.buckets[((lh.buckets.length : Int) - i2 / 2).toNat]) :=
    hch _ (List.getElem_mem _)
  have hst0 : ExpandSt.Good lh.maxBucketRecords
      { nChain := [newBucket lh.maxBucketRecords], nPos := 0,
        nMoveChain := [newBucket lh.maxBucketRecords], nMovePos := 0 } :=
    ⟨Packed_newBucket _ hm, rfl, Packed_newBucket _ hm, rfl⟩
  obtain ⟨st, hwalk, hg1, -, hg3, -⟩ :=
    Expand_walk_good lh.maxBucketRecords hm i2 (lh.buckets.length : Int) hi2ne _ hmove _ hst0
  refine ⟨{ lh with
      i := i2
      buckets := ((lh.buckets ++ [[newBucket lh.maxBucketRecords]]).set lh.buckets.length
        st.nChain).set ((lh.buckets.length : Int) - i2 / 2).toNat st.nMoveChain }, ?_, ?_⟩
  · unfold LinearHt.Expand
    simp only [hi2eq, if_pos hmv0, hget, hwalk]
  · have hE : LevelOK { lh with
        i := i2
        buckets := ((lh.buckets ++ [[newBucket lh.maxBucketRecords]]).set lh.buckets.length
          st.nChain).set ((lh.buckets.length : Int) - i2 / 2).toNat st.nMoveChain } := by
      apply LevelOK_Expand lh _ hlev
      unfold LinearHt.Expand
      simp only [hi2eq, if_pos hmv0, hget, hwalk]
    refine ⟨hm, hE, ?_⟩
    intro c hc
    rcases List.mem_or_eq_of_mem_set hc with hc | hc
    · rcases List.mem_or_eq_of_mem_set hc with hc | hc
      · rcases List.mem_append.mp hc with hc | hc
        · exact hch c hc
        · rw [List.mem_singleton] at hc
          rw [hc]; exact Packed_newBucket _ hm
      · rw [hc]; exact hg1
    · rw [hc]; exact hg3

/-- On a well-formed table the index of a key with a non-negative hash is a
valid directory index. -/
theorem bucketIdx_in_range (lh : LinearHt) (h : LevelOK lh) (key : Key)
    (hk : 0 ≤ hashFunc key) :
    ∃ idx : Nat, lh.bucketIdx key = some (idx : Int) ∧ idx < lh.buckets.length := by
  obtain ⟨k, h1, h2, h3⟩ := h
  have hpow : 1 ≤ 2 ^ k := Nat.one_le_two_pow
  generalize 2 ^ k = P at h1 h2 h3 hpow
  have hipos : 0 < lh.i := by omega
  have hne : lh.i ≠ 0 := by omega
  have hr0 : 0 ≤ goMod (hashFunc key) lh.i := Int.tmod_nonneg _ hk
  have hr1 : goMod (hashFunc key) lh.i < lh.i := Int.tmod_lt_of_pos _ hipos
  unfold LinearHt.bucketIdx
  rw [if_neg hne]
  simp only []
  generalize goMod (hashFunc key) lh.i = r at hr0 hr1
  by_cases hc : (lh.buckets.length : Int) - 1 < r
  · rw [if_pos hc]
    refine ⟨(r - lh.i / 2).toNat, ?_, ?_⟩
    · congr 1
      omega
    · omega
  · rw [if_neg hc]
    exact ⟨r.toNat, by congr 1; omega, by omega⟩

/-- On a well-formed table the placement of a record whose key has a
non-negative hash completes and leaves a well-formed table. -/
theorem place_WF (lh : LinearHt) (h : lh.WF) (record : Record)
    (hk : 0 ≤ hashFunc record.Key) : ∃ lh2, lh.place record = some lh2 ∧ lh2.WF := by
  obtain ⟨hm, hlev, hch⟩ := h
  obtain ⟨idx, hidx, hlt⟩ := bucketIdx_in_range lh hlev record.Key hk
  have hat : lh.bucketAt (idx : Int) = some (lh.buckets[idx]) := by
    unfold LinearHt.bucketAt
    rw [if_pos (by omega), Int.toNat_ofNat, List.getElem?_eq_getElem hlt]
  obtain ⟨c2, p, hins, hp, -⟩ :=
    Bucket_Insert_packed lh.maxBucketRecords hm record (lh.buckets[idx])
      (hch _ (List.getElem_mem _))
  refine ⟨{ lh with buckets := lh.buckets.set idx c2 }, ?_, hm, ?_, ?_⟩
  · unfold LinearHt.place
    simp only [hidx, hat, hins, Int.toNat_ofNat]
  · exact LevelOK_of_fields lh _ hlev rfl (by simp)
  · intro c hc
    rcases List.mem_or_eq_of_mem_set hc with hc | hc
    · exact hch c hc
    · rw [hc]; exact hp

theorem WF_counted (lh : LinearHt) (h : lh.WF) : lh.counted.WF := by
  obtain ⟨hm, hlev, hch⟩ := h
  exact ⟨hm, LevelOK_of_fields lh lh.counted hlev rfl rfl, hch⟩

/-- On a well-formed table `Insert` of a record whose key has a non-negative
hash completes and leaves a well-formed table. -/
theorem Insert_WF (lh : LinearHt) (h : lh.WF) (record : Record)
    (hk : 0 ≤ hashFunc record.Key) : ∃ lh2, lh.Insert record = some lh2 ∧ lh2.WF := by
  have hc := WF_counted lh h
  unfold LinearHt.Insert
  by_cases hg : lh.counted.mustExpand
  · rw [if_pos hg]
    obtain ⟨lhE, hE, hwf⟩ := Expand_WF lh.counted hc
    obtain ⟨lh2, hp, hwf2⟩ := place_WF lhE hwf record hk
    exact ⟨lh2, by rw [hE]; exact hp, hwf2⟩
  · rw [if_neg hg]
    exact place_WF lh.counted hc record hk

theorem WF_new : (newLinearHt 2).WF := by
  refine ⟨by decide, LevelOK_new, ?_⟩
  intro c hc
  have : c = [newBucket 2] := by
    simp [newLinearHt] at hc
    exact hc
  rw [this]
  exact Packed_newBucket 2 (by decide)

/-! ## The growth bound -/

theorem excessBits_bounds (fuel N : Nat) (h : N < 2 ^ 53 * 2 ^ fuel) :
    N < 2 ^ 53 * 2 ^ excessBits fuel N ∧
      (0 < excessBits fuel N → 2 ^ 52 * 2 ^ excessBits fuel N ≤ N) := by
  induction fuel generalizing N with
  | zero => simpa [excessBits] using h
  | succ f ih =>
    unfold excessBits
    by_cases hN : N < 2 ^ 53
    · rw [if_pos hN]
      simp only [pow_zero, mul_one, lt_self_iff_false, false_implies, and_true]
      exact hN
    · rw [if_neg hN]
      have h2 : N / 2 < 2 ^ 53 * 2 ^ f := by
        rw [pow_succ] at h
        omega
      obtain ⟨hub, hlb⟩ := ih (N / 2) h2
      generalize excessBits f (N / 2) = s at hub hlb
      constructor
      · rw [pow_succ]; omega
      · intro _
        rw [pow_succ]
        rcases Nat.eq_zero_or_pos s with hs | hs
        · subst hs
          simp only [pow_zero, mul_one] at *
          omega
        · have := hlb hs
          omega

theorem roundF64_mul_17 (n : Nat) (h0 : 0 < n) (hn : n < 2 ^ 48) :
    roundF64 (n * 7656119366529843) / 2 ^ 52 = 17 * n / 10 := by
  generalize hN : n * 7656119366529843 = N
  have hfuel : N < 2 ^ 53 * 2 ^ N := by
    have h1 : N < 2 ^ N := Nat.lt_two_pow N
    have h2 : 0 < 2 ^ N := Nat.two_pow_pos N
    generalize 2 ^ N = T at h1 h2
    omega
  obtain ⟨hub, hlb⟩ := excessBits_bounds N N hfuel
  unfold roundF64
  simp only []
  generalize excessBits N N = s at hub hlb ⊢
  have hlb2 : 2 ^ 52 * 2 ^ s ≤ N := by
    rcases Nat.eq_zero_or_pos s with h | h
    · subst h
      simp only [pow_zero, mul_one]
      omega
    · exact hlb h
  have hs52 : s ≤ 52 := by
    by_contra hcon
    have h1 : 2 ^ 53 ≤ 2 ^ s := Nat.pow_le_pow_right (by decide) (by omega)
    generalize 2 ^ s = P at h1 hlb2
    omega
  obtain ⟨u, hu⟩ : 2 ^ s ∣ 2 ^ 52 := pow_dvd_pow 2 hs52
  have hPpos : 0 < 2 ^ s := Nat.two_pow_pos s
  generalize 2 ^ s = P at hub hlb2 hu hPpos ⊢
  have hdm := Nat.div_add_mod' N P
  have hmod := Nat.mod_lt N hPpos
  generalize N / P = q at hdm ⊢
  generalize N % P = r at hdm hmod ⊢
  have key : ∀ R q2 : Nat, R = q2 * P → 2 * N ≤ 2 * R + P → 2 * R ≤ 2 * N + P →
      R / 2 ^ 52 = 17 * n / 10 := by
    intro R q2 hR h1 h2
    apply Nat.div_eq_of_lt_le
    · by_contra hlt
      have hlt1 : R < 17 * n / 10 * 2 ^ 52 := by omega
      have hlt2 : q2 * P < (17 * n / 10 * u) * P := by
        have : 17 * n / 10 * u * P = 17 * n / 10 * 2 ^ 52 := by rw [hu]; ring
        rw [this, ← hR]; exact hlt1
      have hq : q2 + 1 ≤ 17 * n / 10 * u := Nat.lt_of_mul_lt_mul_right hlt2
      have hstep : R + P ≤ 17 * n / 10 * 2 ^ 52 := by
        have h3 : (q2 + 1) * P ≤ (17 * n / 10 * u) * P := Nat.mul_le_mul_right P hq
        have : 17 * n / 10 * u * P = 17 * n / 10 * 2 ^ 52 := by rw [hu]; ring
        rw [this, Nat.add_mul, one_mul, ← hR] at h3
        exact h3
      omega
    · omega
  generalize hX : q * P = X at hdm
  split
  · rename_i hc
    apply key ((q + 1) * P) (q + 1) rfl
    · rw [Nat.add_mul, one_mul, hX]; omega
    · rw [Nat.add_mul, one_mul, hX]; omega
  · rename_i hc
    apply key X q hX.symm
    · omega
    · omega

theorem growthBound_eq (n : Nat) (hn : n < 2 ^ 48) : growthBound n = ((17 * n / 10 : Nat) : Int) := by
  unfold growthBound f64MulTrunc
  rcases Nat.eq_zero_or_pos n with h | h
  · subst h; decide
  · rw [roundF64_mul_17 n h hn]
/-! ## The growth policy of `Insert` -/

/-- What a completed `Insert` did to the counter and to the directory. -/
theorem Insert_policy (lh lh2 : LinearHt) (record : Record)
    (h : lh.Insert record = some lh2) :
    lh2.RecordNum = lh.RecordNum + 1 ∧
    ((growthBound lh.buckets.length < lh.RecordNum + 1 ∧
        (∃ lhE, lh.counted.Expand = some lhE ∧ lhE.place record = some lh2) ∧
        lh2.BucketNum = lh.BucketNum + 1) ∨
     (¬ growthBound lh.buckets.length < lh.RecordNum + 1 ∧
        lh.counted.place record = some lh2 ∧ lh2.BucketNum = lh.BucketNum)) := by
  rcases Insert_some lh lh2 record h with ⟨hg, lhE, hE, hp⟩ | ⟨hg, hp⟩
  · obtain ⟨-, hl, hr, -⟩ := place_fields lhE lh2 record hp
    obtain ⟨-, hlE, hrE, -⟩ := Expand_fields lh.counted lhE hE
    refine ⟨?_, Or.inl ⟨hg, ⟨lhE, hE, hp⟩, ?_⟩⟩
    · simp only [LinearHt.RecordNum, hr, hrE, LinearHt.counted]
    · simp only [LinearHt.BucketNum, hl, hlE, LinearHt.counted]
      push_cast; rfl
  · obtain ⟨-, hl, hr, -⟩ := place_fields lh.counted lh2 record hp
    refine ⟨?_, Or.inr ⟨hg, hp, ?_⟩⟩
    · simp only [LinearHt.RecordNum, hr, LinearHt.counted]
    · simp only [LinearHt.BucketNum, hl, LinearHt.counted]

/-- A run of inserts of keys with non-negative hashes on a well-formed table
completes, and the counter goes up by the number of inserts. -/
theorem inserts_complete (rs : List Record) (lh : LinearHt) (h : lh.WF)
    (hk : ∀ r ∈ rs, 0 ≤ hashFunc r.Key) :
    ∃ lh2, lh.calls (rs.map Call.Insert) = some lh2 ∧ lh2.WF ∧
      lh2.RecordNum = lh.RecordNum + (rs.length : Int) := by
  induction rs generalizing lh with
  | nil => exact ⟨lh, rfl, h, by simp⟩
  | cons r rs ih =>
    obtain ⟨lh1, h1, hwf1⟩ := Insert_WF lh h r (hk r (List.mem_cons_self r rs))
    obtain ⟨lh2, h2, hwf2, hn2⟩ := ih lh1 hwf1 (fun x hx => hk x (List.mem_cons_of_mem _ hx))
    refine ⟨lh2, ?_, hwf2, ?_⟩
    · simp only [List.map_cons, LinearHt.calls, LinearHt.call, h1]
      exact h2
    · rw [hn2, (Insert_policy lh lh1 r h1).1]
      simp only [List.length_cons]
      push_cast; ring

/-- An insert into a well-formed table with two slots and at most two records
leaves two slots. -/
theorem insert_keeps_two_slots (lh : LinearHt) (h : lh.WF) (hb : lh.BucketNum = 2)
    (hr : lh.RecordNum + 1 ≤ 3) (r : Record) (hk : 0 ≤ hashFunc r.Key) :
    ∃ lh2, lh.Insert r = some lh2 ∧ lh2.WF ∧ lh2.BucketNum = 2 ∧
      lh2.RecordNum = lh.RecordNum + 1 := by
  obtain ⟨lh2, h2, hwf2⟩ := Insert_WF lh h r hk
  have hlen : lh.buckets.length = 2 := by
    simp only [LinearHt.BucketNum] at hb
    exact_mod_cast hb
  have hg : growthBound lh.buckets.length = 3 := by rw [hlen]; decide
  obtain ⟨hn, hcase | hcase⟩ := Insert_policy lh lh2 r h2
  · rw [hg] at hcase
    omega
  · exact ⟨lh2, h2, hwf2, by rw [hcase.2.2, hb], hn⟩

/-- The fourth insert into a well-formed table with two slots and three records
appends a slot. -/
theorem insert_appends_third_slot (lh : LinearHt) (h : lh.WF) (hb : lh.BucketNum = 2)
    (hr : lh.RecordNum = 3) (r : Record) (hk : 0 ≤ hashFunc r.Key) :
    ∃ lh2, lh.Insert r = some lh2 ∧ lh2.BucketNum = 3 := by
  obtain ⟨lh2, h2, -⟩ := Insert_WF lh h r hk
  have hlen : lh.buckets.length = 2 := by
    simp only [LinearHt.BucketNum] at hb
    exact_mod_cast hb
  have hg : growthBound lh.buckets.length = 3 := by rw [hlen]; decide
  obtain ⟨-, hcase | hcase⟩ := Insert_policy lh lh2 r h2
  · exact ⟨lh2, h2, by rw [hcase.2.2, hb]; rfl⟩
  · rw [hg, hr] at hcase
    omega

/-- Growth policy of the inserts that complete: whenever `Insert` completes,
`RecordNum()` has gone up by one and `Expand` has run exactly when
`int(math.Floor(float64(BucketNum())*1.7))` is less than the incremented
`RecordNum()`, once, before the record is placed, so that `BucketNum()` is the
old value plus one in that case and unchanged otherwise; the bound is
`⌊17 * BucketNum() / 10⌋` for every directory shorter than `2^48`; starting
from `newLinearHt(2)`, inserts of keys whose `hashFunc` value is not negative
all complete, after three of them `BucketNum()` is 2 and after the fourth it
is 3. -/
theorem insert_growth_policy :
    (∀ (lh lh2 : LinearHt) (record : Record), lh.Insert record = some lh2 →
      lh2.RecordNum = lh.RecordNum + 1 ∧
      ((growthBound lh.buckets.length < lh.RecordNum + 1 ∧
          (∃ lhE, lh.counted.Expand = some lhE ∧ lhE.place record = some lh2) ∧
          lh2.BucketNum = lh.BucketNum + 1) ∨
       (¬ growthBound lh.buckets.length < lh.RecordNum + 1 ∧
          lh.counted.place record = some lh2 ∧ lh2.BucketNum = lh.BucketNum))) ∧
    (∀ n : Nat, n < 2 ^ 48 → growthBound n = ((17 * n / 10 : Nat) : Int)) ∧
    (∀ rs : List Record, (∀ r ∈ rs, 0 ≤ hashFunc r.Key) →
      ∃ lh, (newLinearHt 2).calls (rs.map Call.Insert) = some lh ∧
        lh.RecordNum = (rs.length : Int)) ∧
    (∀ r1 r2 r3 r4 : Record, 0 ≤ hashFunc r1.Key → 0 ≤ hashFunc r2.Key →
      0 ≤ hashFunc r3.Key → 0 ≤ hashFunc r4.Key →
      ∃ lh3 lh4,
        (newLinearHt 2).calls [Call.Insert r1, Call.Insert r2, Call.Insert r3] = some lh3 ∧
        lh3.BucketNum = 2 ∧ lh3.Insert r4 = some lh4 ∧ lh4.BucketNum = 3) := by
  refine ⟨Insert_policy, growthBound_eq, ?_, ?_⟩
  · intro rs hk
    obtain ⟨lh, h1, -, h3⟩ := inserts_complete rs (newLinearHt 2) WF_new hk
    exact ⟨lh, h1, by rw [h3]; simp [LinearHt.RecordNum, newLinearHt]⟩
  · intro r1 r2 r3 r4 h1 h2 h3 h4
    obtain ⟨s1, e1, w1, b1, n1⟩ :=
      insert_keeps_two_slots (newLinearHt 2) WF_new (by decide) (by decide) r1 h1
    have n1v : s1.RecordNum = 1 := by rw [n1]; decide
    obtain ⟨s2, e2, w2, b2, n2⟩ :=
      insert_keeps_two_slots s1 w1 b1 (by rw [n1v]; decide) r2 h2
    have n2v : s2.RecordNum = 2 := by rw [n2, n1v]; decide
    obtain ⟨s3, e3, w3, b3, n3⟩ :=
      insert_keeps_two_slots s2 w2 b2 (by rw [n2v]; decide) r3 h3
    have n3v : s3.RecordNum = 3 := by rw [n3, n2v]; decide
    obtain ⟨s4, e4, b4⟩ := insert_appends_third_slot s3 w3 b3 n3v r4 h4
    refine ⟨s3, s4, ?_, b3, e4, b4⟩
    simp only [LinearHt.calls, LinearHt.call, e1, e2, e3]

/-- The growth policy at the inserts of `a`, `b`, `c`, `d`: the three inserts
complete with two slots, and the insert of `d` into the table holding `a`,
`b`, `c` completes, counts four records and appends the third slot. -/
theorem insert_growth_policy_witness :
    ((newLinearHt 2).calls
        [Call.Insert (rec1 97 1), Call.Insert (rec1 98 2), Call.Insert (rec1 99 3)]
        = some tableABC ∧ tableABC.BucketNum = 2) ∧
    tableABC.Insert (rec1 100 4) = some tableABCD ∧
    (tableABCD.RecordNum = tableABC.RecordNum + 1 ∧
      ((growthBound tableABC.buckets.length < tableABC.RecordNum + 1 ∧
          (∃ lhE, tableABC.counted.Expand = some lhE ∧
            lhE.place (rec1 100 4) = some tableABCD) ∧
          tableABCD.BucketNum = tableABC.BucketNum + 1) ∨
       (¬ growthBound tableABC.buckets.length < tableABC.RecordNum + 1 ∧
          tableABC.counted.place (rec1 100 4) = some tableABCD ∧
          tableABCD.BucketNum = tableABC.BucketNum))) :=
  ⟨by decide, by decide,
    insert_growth_policy.1 tableABC tableABCD (rec1 100 4) (by decide)⟩

/-- C8.  Growth policy of `Insert`: the code does not complete the insert.  On
the fresh table the insert of a record whose key is twelve bytes `a` raises the
counter to 1, skips `Expand` (3 is not below 1), computes the directory index
-1 from the negative hash and fails at the directory access.  After the inserts
of `a`, `b`, `c` the same insert raises the counter to 4, runs `Expand`, which
appends the third slot, computes the index -3 and fails at the directory
access. -/
theorem insert_fails_at_negative_index :
    hashFunc keyA12 = -3595093842338326191 ∧
    ((newLinearHt 2).counted.RecordNum = 1 ∧
      ¬ (newLinearHt 2).counted.mustExpand ∧
      (newLinearHt 2).counted.bucketIdx keyA12 = some (-1) ∧
      (newLinearHt 2).counted.bucketAt (-1) = none ∧
      (newLinearHt 2).Insert { Key := keyA12, Value := Value.dyn 1 } = none) ∧
    ((newLinearHt 2).calls
        [Call.Insert (rec1 97 1), Call.Insert (rec1 98 2), Call.Insert (rec1 99 3)]
        = some tableABC ∧
      tableABC.BucketNum = 2 ∧
      tableABC.counted.RecordNum = 4 ∧
      tableABC.counted.mustExpand ∧
      tableABC.counted.Expand = some tableABCexp ∧
      tableABCexp.BucketNum = 3 ∧
      tableABCexp.bucketIdx keyA12 = some (-3) ∧
      tableABCexp.bucketAt (-3) = none ∧
      tableABC.Insert { Key := keyA12, Value := Value.dyn 4 } = none) := by
  decide

/-! ## Runs on which the code fails -/

/-- C1.  Round trip of `Insert` and `Find` for distinct keys: the code does not
provide it.  The key of eleven bytes `z` has a negative `hashFunc` value, whose
remainder modulo the level 2 is -1, so both `Insert` and `Find` index the
directory at -1 and fail on the fresh table. -/
theorem insert_with_negative_hash_fails :
    hashFunc keyZ11 = -4541394174195688477 ∧
    (newLinearHt 2).bucketIdx keyZ11 = some (-1) ∧
    (newLinearHt 2).calls [Call.Insert { Key := keyZ11, Value := Value.dyn 1 }] = none ∧
    (newLinearHt 2).Find keyZ11 = none := by
  decide

/-- C2.  Deletion of a stored key: the code does not complete it.  After the
inserts of `a`, `b`, `c`, `d` the key `b` is stored and found, but `Delete`
indexes the three-slot directory at 3 and fails. -/
theorem delete_of_stored_key_fails :
    (newLinearHt 2).calls [Call.Insert (rec1 97 1), Call.Insert (rec1 98 2),
      Call.Insert (rec1 99 3), Call.Insert (rec1 100 4)] = some tableABCD ∧
    tableABCD.Find [98] = some (Value.dyn 2) ∧
    tableABCD.deleteIdx [98] = some 3 ∧
    tableABCD.BucketNum = 3 ∧
    tableABCD.Delete [98] = none := by
  decide

/-- C3.  Count invariant: the code breaks it.  After the inserts of `a`, `c`,
`e`, the deletion of `a` and the insert of `g`, `RecordNum()` is 3 while the two
chains hold 2 and 0 records: the record `e` is gone. -/
theorem record_count_exceeds_chain_sum :
    (newLinearHt 2).calls [Call.Insert (rec1 97 1), Call.Insert (rec1 99 2),
      Call.Insert (rec1 101 3), Call.Delete [97], Call.Insert (rec1 103 4)] = some tableCG ∧
    tableCG.RecordNum = 3 ∧ tableCG.BucketNum = 2 ∧
    tableCG.BucketRecords 0 = some 2 ∧ tableCG.BucketRecords 1 = some 0 ∧
    tableCG.Find [101] = some Value.nil := by
  decide

/-- C4.  Split conservation: the code breaks it.  After the inserts of `a`, `c`,
`e`, the deletion of `a` and the insert of `b`, the next insert runs `Expand`
with split index 0; the chain there holds `c` and `e` before, and afterwards the
chain at index 0 and the appended chain together hold `c` only. -/
theorem expand_loses_record_after_short_segment :
    (newLinearHt 2).calls [Call.Insert (rec1 97 1), Call.Insert (rec1 99 2),
      Call.Insert (rec1 101 3), Call.Delete [97], Call.Insert (rec1 98 4)] = some tableCEB ∧
    tableCEB.counted.mustExpand ∧
    tableCEB.counted.Expand = some tableCB ∧
    tableCEB.buckets[0]?.map Chain.items
      = some [Item.record (rec1 99 2), Item.record (rec1 101 3)] ∧
    tableCB.buckets[0]?.map Chain.items = some [Item.record (rec1 99 2)] ∧
    tableCB.buckets[2]?.map Chain.items = some [] := by
  decide

/-- C5.  Same index in `Delete` as in `Find`: the code computes different ones.
With three slots and level 4 the key `f` has remainder 3, which `Find` lowers to
1 and `Delete` keeps; with five slots and level 8 the key `a` has remainder 6,
which `Find` lowers to 2 and `Delete` lowers by `2^7` to -122. -/
theorem delete_index_differs_from_find_index :
    (tableABCD.bucketIdx [102] = some 1 ∧ tableABCD.deleteIdx [102] = some 3) ∧
    ((newLinearHt 2).calls insertsAG).map
        (fun lh => (lh.BucketNum, lh.i, lh.bucketIdx [97], lh.deleteIdx [97]))
      = some (5, 8, some 2, some (-122)) := by
  decide

/-- C6.  Segment fullness: the code breaks it.  After the inserts of `a`, `c`,
`e` and the deletion of `a`, the chain at index 0 has two segments and the
first of them holds one record, not two. -/
theorem delete_leaves_short_inner_segment :
    (newLinearHt 2).calls [Call.Insert (rec1 97 1), Call.Insert (rec1 99 2),
      Call.Insert (rec1 101 3), Call.Delete [97]] = some tableCE ∧
    tableCE.buckets[0]? = some [seg [rec1 99 2], seg [rec1 101 3]] ∧
    ¬ Chain.NonLastFull 2 [seg [rec1 99 2], seg [rec1 101 3]] := by
  decide

/-- C7.  Deletion of an absent key: the code does not complete it.  No chain of
the table reached by the inserts of `a`, `b`, `c`, `d` holds the key `f`, and
`Delete` of `f` indexes the three-slot directory at 3 and fails. -/
theorem delete_of_absent_key_fails :
    Reached tableABCD ∧
    (∀ c ∈ tableABCD.buckets, Bucket.Find c [102] = some Value.nil) ∧
    tableABCD.deleteIdx [102] = some 3 ∧ tableABCD.bucketAt 3 = none ∧
    tableABCD.Delete [102] = none :=
  ⟨⟨[Call.Insert (rec1 97 1), Call.Insert (rec1 98 2), Call.Insert (rec1 99 3),
      Call.Insert (rec1 100 4)], by decide⟩, by decide, by decide, by decide, by decide⟩

/-- C10.  `Bucket.Insert` keeps every record: the code does not.  On the chain
with the segments `[c]` and `[e]`, which the table holds after the inserts of
`a`, `c`, `e` and the deletion of `a`, the insert of `g` fills the first
segment and links a fresh segment after it, and `e` is no longer in the chain. -/
theorem bucket_insert_drops_successor :
    tableCE.buckets[0]? = some [seg [rec1 99 2], seg [rec1 101 3]] ∧
    Bucket.Insert [seg [rec1 99 2], seg [rec1 101 3]] (Item.record (rec1 103 4))
      = some ([seg [rec1 99 2, rec1 103 4], seg []], 1) ∧
    Chain.items [seg [rec1 99 2], seg [rec1 101 3]]
      = [Item.record (rec1 99 2), Item.record (rec1 101 3)] ∧
    Chain.items [seg [rec1 99 2, rec1 103 4], seg []]
      = [Item.record (rec1 99 2), Item.record (rec1 103 4)] := by
  decide

/-! ## `hashFunc` against its specification -/

theorem hashStep_eq (h : Nat) (b : Fin 256) : hashStep h b = (33 * h + b.val) % 2 ^ 64 := by
  unfold hashStep
  rw [Nat.shiftLeft_eq]
  omega

theorem foldl_hashStep_eq (key : Key) (h : Nat) :
    key.foldl hashStep h = key.foldl (fun h b => (33 * h + b.val) % 2 ^ 64) h := by
  induction key generalizing h with
  | nil => rfl
  | cons b t ih => simp only [List.foldl_cons, hashStep_eq, ih]

/-- C15.  `hashFunc` is the times-33-plus-byte hash: for every key it equals the
value obtained by starting from 5381 and replacing `h` by `(33*h + b) mod 2^64`
for each byte `b` of the key in order, the final word read as a signed
two's-complement 64-bit integer; it is a function of the key's bytes alone. -/
theorem hashFunc_is_times33 :
    (∀ key : Key, hashFunc key = hashSpec key) ∧
    (∀ (key : Key) (b : Fin 256),
      times33 (key ++ [b]) = (33 * times33 key + b.val) % 2 ^ 64) ∧
    times33 [] = 5381 := by
  refine ⟨?_, ?_, rfl⟩
  · intro key
    unfold hashFunc hashSpec toInt64 times33
    rw [foldl_hashStep_eq]
  · intro key b
    unfold times33
    rw [List.foldl_append]
    rfl

/-! ## `Bucket.Find` as a first-match scan -/

theorem items_cons (b : Bucket) (c : Chain) :
    Chain.items (b :: c) = b.records ++ Chain.items c := by
  simp [Chain.items]

theorem recordList_cons (b : Bucket) (c : Chain) :
    Chain.recordList (b :: c) = b.records.filterMap Item.asRecord ++ Chain.recordList c := by
  simp [Chain.recordList, items_cons]

theorem OnlyRecords_tail (x : Item) (t : List Item) (h : OnlyRecords (x :: t)) :
    OnlyRecords t :=
  fun y hy => h y (List.mem_cons_of_mem _ hy)

theorem findRecords_onlyRecords (l : List Item) (key : Key) (h : OnlyRecords l) :
    Bucket.findRecords l key =
      some (((l.filterMap Item.asRecord).find? (fun r => decide (r.Key = key))).map
        Record.Value) := by
  induction l with
  | nil => rfl
  | cons x t ih =>
    obtain ⟨r, hx⟩ := h x (List.mem_cons_self x t)
    subst hx
    have iht := ih (OnlyRecords_tail _ t h)
    by_cases hk : r.Key = key
    · simp [Bucket.findRecords, Item.asRecord, List.find?_cons, hk]
    · simp [Bucket.findRecords, Item.asRecord, List.find?_cons, hk, iht]

theorem Find_onlyRecords (c : Chain) (key : Key) (h : ∀ b ∈ c, OnlyRecords b.records) :
    Bucket.Find c key = some (c.firstValue key) := by
  induction c with
  | nil => rfl
  | cons b rest ih =>
    have hb := h b (List.mem_cons_self b rest)
    have ihr := ih (fun d hd => h d (List.mem_cons_of_mem _ hd))
    unfold Bucket.Find
    rw [findRecords_onlyRecords b.records key hb]
    unfold Chain.firstValue Chain.firstRecord at ihr ⊢
    rw [recordList_cons, List.find?_append]
    cases hf : (b.records.filterMap Item.asRecord).find? (fun r => decide (r.Key = key)) with
    | none => simpa using ihr
    | some r => simp

theorem firstRecord_eq_none (c : Chain) (key : Key) :
    c.firstRecord key = none ↔ ∀ r, Item.record r ∈ c.items → r.Key ≠ key := by
  unfold Chain.firstRecord Chain.recordList
  rw [List.find?_eq_none]
  constructor
  · intro h r hr
    have := h r (List.mem_filterMap.mpr ⟨Item.record r, hr, rfl⟩)
    simpa using this
  · intro h r hr
    obtain ⟨x, hx, hxr⟩ := List.mem_filterMap.mp hr
    cases x with
    | record r2 =>
      simp only [Item.asRecord, Option.some.injEq] at hxr
      subst hxr
      simpa using h r2 hx
    | element t => simp [Item.asRecord] at hxr

/-- C13, amended.  `Bucket.Find` is a first-match scan: for every chain whose
segments hold records only and every key, `Find` returns the value of the
first record with that key in chain order, and it returns nil exactly when no
segment holds a record with the key or the first record with the key has a nil
value. -/
theorem find_is_first_match (c : Chain) (key : Key)
    (h : ∀ b ∈ c, OnlyRecords b.records) :
    Bucket.Find c key = some (c.firstValue key) ∧
    (∀ r, c.firstRecord key = some r → Bucket.Find c key = some r.Value) ∧
    (Bucket.Find c key = some Value.nil ↔
      ((∀ r, Item.record r ∈ c.items → r.Key ≠ key) ∨
        ∃ r, c.firstRecord key = some r ∧ r.Value = Value.nil)) := by
  have hF := Find_onlyRecords c key h
  refine ⟨hF, ?_, ?_⟩
  · intro r hr
    rw [hF]
    simp [Chain.firstValue, hr]
  · rw [hF, ← firstRecord_eq_none]
    unfold Chain.firstValue
    cases hf : c.firstRecord key with
    | none => simp
    | some r => simp

/-- The first-match scan on the chain with the segments `[a, c]` and `[e]`:
the key `e` is found in the second segment. -/
theorem find_is_first_match_witness :
    (∀ b ∈ [seg [rec1 97 1, rec1 99 2], seg [rec1 101 3]], OnlyRecords b.records) ∧
    Bucket.Find [seg [rec1 97 1, rec1 99 2], seg [rec1 101 3]] [101] = some (Value.dyn 3) :=
  have h : ∀ b ∈ [seg [rec1 97 1, rec1 99 2], seg [rec1 101 3]], OnlyRecords b.records := by
    intro b hb x hx
    simp only [List.mem_cons, List.mem_singleton, List.not_mem_nil, or_false] at hb
    rcases hb with hb | hb <;> subst hb <;> simp [seg] at hx
    · rcases hx with hx | hx <;> exact ⟨_, hx⟩
    · exact ⟨_, hx⟩
  ⟨h, (find_is_first_match _ [101] h).1.trans (by decide)⟩

/-- C13 as stated fails: after the inserts of the key `a` with a nil value and
then with the value 1, `Find` of `a` returns nil although a segment of the
chain holds a record with the key `a` and a non-nil value. -/
theorem find_returns_nil_before_later_value :
    (newLinearHt 2).calls [Call.Insert { Key := [97], Value := Value.nil },
      Call.Insert (rec1 97 1)] = some tableDup ∧
    tableDup.Find [97] = some Value.nil ∧
    Bucket.Find [seg [{ Key := [97], Value := Value.nil }, rec1 97 1], seg []] [97]
      = some Value.nil ∧
    Item.record (rec1 97 1)
      ∈ Chain.items [seg [{ Key := [97], Value := Value.nil }, rec1 97 1], seg []] ∧
    (rec1 97 1).Key = [97] ∧ (rec1 97 1).Value ≠ Value.nil := by
  decide

/-! ## `Bucket.Delete` on chains of records -/

theorem recordCount_cons (b : Bucket) (c : Chain) :
    Chain.recordCount (b :: c) = (b.records.length : Int) + Chain.recordCount c := by
  simp [Chain.recordCount]

/-- The scan of one segment that holds records only: either no record has the
key and the scan says so, or the first match is removed. -/
theorem removeKey_onlyRecords (l : List Item) (key : Key) (h : OnlyRecords l) :
    (Bucket.removeKey l key = some none ∧ ∀ r, Item.record r ∈ l → r.Key ≠ key) ∨
    (∃ rs, Bucket.removeKey l key = some (some rs) ∧ rs.length + 1 = l.length ∧
      ∃ r, Item.record r ∈ l ∧ r.Key = key) := by
  induction l with
  | nil => exact Or.inl ⟨rfl, by simp⟩
  | cons x t ih =>
    obtain ⟨r, hx⟩ := h x (List.mem_cons_self x t)
    subst hx
    by_cases hk : r.Key = key
    · right
      exact ⟨t, by simp [Bucket.removeKey, hk], rfl, r, List.mem_cons_self _ _, hk⟩
    · rcases ih (OnlyRecords_tail _ t h) with ⟨h1, h2⟩ | ⟨rs, h1, h2, r2, h3, h4⟩
      · left
        refine ⟨by simp [Bucket.removeKey, hk, h1], ?_⟩
        intro r2 hr2
        rcases List.mem_cons.mp hr2 with he | hm
        · cases he; exact hk
        · exact h2 r2 hm
      · right
        exact ⟨Item.record r :: rs, by simp [Bucket.removeKey, hk, h1], by simp [h2],
          r2, List.mem_cons_of_mem _ h3, h4⟩

/-- The loop of `Bucket.Delete` from the second segment on, for a chain that
holds records only. -/
theorem DeleteFrom_onlyRecords (c : Chain) (prev : Bucket) (key : Key)
    (h : ∀ b ∈ c, OnlyRecords b.records) :
    ∃ c2 removed, Bucket.DeleteFrom prev c key = some (c2, removed) ∧
      (removed = true ↔ ∃ r, Item.record r ∈ Chain.items c ∧ r.Key = key) ∧
      (removed = true → Chain.recordCount c2 = Chain.recordCount (prev :: c) - 1) ∧
      (removed = false → c2 = prev :: c) := by
  induction c generalizing prev with
  | nil =>
    refine ⟨[prev], false, rfl, ?_, by simp, by simp⟩
    simp [Chain.items]
  | cons b rest ih =>
    have hb := h b (List.mem_cons_self b rest)
    have hrest : ∀ d ∈ rest, OnlyRecords d.records :=
      fun d hd => h d (List.mem_cons_of_mem _ hd)
    rcases removeKey_onlyRecords b.records key hb with ⟨h1, h2⟩ | ⟨rs, h1, h2, r, h3, h4⟩
    · obtain ⟨c2, removed, e1, e2, e3, e4⟩ := ih b hrest
      refine ⟨prev :: c2, removed, by simp [Bucket.DeleteFrom, h1, e1], ?_, ?_, ?_⟩
      · rw [e2, items_cons]
        constructor
        · rintro ⟨r, hr, hk⟩
          exact ⟨r, List.mem_append_right _ hr, hk⟩
        · rintro ⟨r, hr, hk⟩
          rcases List.mem_append.mp hr with hr | hr
          · exact absurd hk (h2 r hr)
          · exact ⟨r, hr, hk⟩
      · intro ht
        have := e3 ht
        rw [recordCount_cons, this, recordCount_cons prev (b :: rest)]
        ring
      · intro hf
        rw [e4 hf]
    · have hmem : ∃ r, Item.record r ∈ Chain.items (b :: rest) ∧ r.Key = key :=
        ⟨r, by rw [items_cons]; exact List.mem_append_left _ h3, h4⟩
      have hlen : (b.records.length : Int) = (rs.length : Int) + 1 := by
        rw [← h2]; push_cast; rfl
      by_cases hz : rs.length = 0
      · refine ⟨prev :: rest, true, by simp [Bucket.DeleteFrom, h1, hz], by simp [hmem], ?_,
          by simp⟩
        intro _
        rw [recordCount_cons, recordCount_cons, recordCount_cons, hlen, hz]
        push_cast; ring
      · by_cases hm : (prev.records.length : Int) + (rs.length : Int)
            < mergeThreshold b.maxBucketRecords
        · refine ⟨{ prev with records := prev.records ++ rs.map Item.element } :: rest, true,
            by simp [Bucket.DeleteFrom, h1, hz, hm], by simp [hmem], ?_, by simp⟩
          intro _
          rw [recordCount_cons, recordCount_cons, recordCount_cons, hlen]
          simp only [List.length_append, List.length_map]
          push_cast; ring
        · refine ⟨prev :: { b with records := rs } :: rest, true,
            by simp [Bucket.DeleteFrom, h1, hz, hm], by simp [hmem], ?_, by simp⟩
          intro _
          rw [recordCount_cons, recordCount_cons, recordCount_cons, recordCount_cons, hlen]
          ring

/-- The report of `Bucket.Delete` on chains of records: for every chain of
any capacity whose segments hold records only and every key, `Delete`
completes and returns true if and only if some segment of the chain holds a
record with the key; when it returns true the total number of records across
the segments is exactly one less than before, and when it returns false the
chain is unchanged. -/
theorem bucket_delete_reports_removal (c : Chain) (key : Key)
    (h : ∀ b ∈ c, OnlyRecords b.records) :
    ∃ c2 removed, Bucket.Delete c key = some (c2, removed) ∧
      (removed = true ↔ ∃ r, Item.record r ∈ Chain.items c ∧ r.Key = key) ∧
      (removed = true → Chain.recordCount c2 = Chain.recordCount c - 1) ∧
      (removed = false → c2 = c) := by
  cases c with
  | nil => exact ⟨[], false, rfl, by simp [Chain.items], by simp, by simp⟩
  | cons b rest =>
    have hb := h b (List.mem_cons_self b rest)
    have hrest : ∀ d ∈ rest, OnlyRecords d.records :=
      fun d hd => h d (List.mem_cons_of_mem _ hd)
    rcases removeKey_onlyRecords b.records key hb with ⟨h1, h2⟩ | ⟨rs, h1, h2, r, h3, h4⟩
    · obtain ⟨c2, removed, e1, e2, e3, e4⟩ := DeleteFrom_onlyRecords rest b key hrest
      refine ⟨c2, removed, by simp [Bucket.Delete, h1, e1], ?_, e3, e4⟩
      rw [e2, items_cons]
      constructor
      · rintro ⟨r, hr, hk⟩
        exact ⟨r, List.mem_append_right _ hr, hk⟩
      · rintro ⟨r, hr, hk⟩
        rcases List.mem_append.mp hr with hr | hr
        · exact absurd hk (h2 r hr)
        · exact ⟨r, hr, hk⟩
    · have hmem : ∃ r, Item.record r ∈ Chain.items (b :: rest) ∧ r.Key = key :=
        ⟨r, by rw [items_cons]; exact List.mem_append_left _ h3, h4⟩
      refine ⟨{ b with records := rs } :: rest, true, by simp [Bucket.Delete, h1],
        by simp [hmem], ?_, by simp⟩
      intro _
      rw [recordCount_cons, recordCount_cons, ← h2]
      push_cast; ring

/-- The report of `Bucket.Delete` on the chain with the segments `[a, c]` and
`[e]`: the key `e` is held, the call returns true and leaves two records of
three. -/
theorem bucket_delete_reports_removal_witness :
    (∀ b ∈ [seg [rec1 97 1, rec1 99 2], seg [rec1 101 3]], OnlyRecords b.records) ∧
    Bucket.Delete [seg [rec1 97 1, rec1 99 2], seg [rec1 101 3]] [101]
      = some ([seg [rec1 97 1, rec1 99 2]], true) ∧
    ∃ c2 removed, Bucket.Delete [seg [rec1 97 1, rec1 99 2], seg [rec1 101 3]] [101]
        = some (c2, removed) ∧
      (removed = true ↔ ∃ r, Item.record r
        ∈ Chain.items [seg [rec1 97 1, rec1 99 2], seg [rec1 101 3]] ∧ r.Key = [101]) ∧
      (removed = true → Chain.recordCount c2
        = Chain.recordCount [seg [rec1 97 1, rec1 99 2], seg [rec1 101 3]] - 1) ∧
      (removed = false → c2 = [seg [rec1 97 1, rec1 99 2], seg [rec1 101 3]]) :=
  have h : ∀ b ∈ [seg [rec1 97 1, rec1 99 2], seg [rec1 101 3]], OnlyRecords b.records := by
    intro b hb x hx
    simp only [List.mem_cons, List.mem_singleton, List.not_mem_nil, or_false] at hb
    rcases hb with hb | hb <;> subst hb <;> simp [seg] at hx
    · rcases hx with hx | hx <;> exact ⟨_, hx⟩
    · exact ⟨_, hx⟩
  ⟨h, by decide, bucket_delete_reports_removal _ [101] h⟩

/-- C11.  `Bucket.Delete` reports removal exactly: the code does not on the
chains its own merge branch leaves.  The chain `chainE5` of capacity 3, which
five inserts and four deletions on a fresh segment produce, holds a list
element instead of the record with key 5; `Delete` fails its type assertion on
it whatever the key, so it returns neither true for the key 5 nor false for
the key 7. -/
theorem bucket_delete_fails_on_merged_chain :
    Bucket.calls [newBucket 3]
      [BucketCall.Insert (rec1 1 1), BucketCall.Insert (rec1 2 2),
       BucketCall.Insert (rec1 3 3), BucketCall.Insert (rec1 4 4),
       BucketCall.Insert (rec1 5 5), BucketCall.Delete [1], BucketCall.Delete [2],
       BucketCall.Delete [3], BucketCall.Delete [4]] = some chainE5 ∧
    Bucket.Delete chainE5 [5] = none ∧
    Bucket.Delete chainE5 [7] = none := by
  decide

/-! ## The frame of `Expand` -/

theorem moveIdx_in_range (lh : LinearHt) (h : LevelOK lh) :
    0 ≤ lh.moveIdx ∧ lh.moveIdx < (lh.buckets.length : Int) := by
  obtain ⟨k, h1, h2, h3⟩ := h
  have hpow : 1 ≤ 2 ^ k := Nat.one_le_two_pow
  generalize 2 ^ k = P at h1 h2 h3 hpow
  unfold LinearHt.moveIdx
  by_cases hc : lh.i = (lh.buckets.length : Int)
  · rw [if_pos hc]; omega
  · rw [if_neg hc]; omega

theorem Expand_buckets (lh lh2 : LinearHt) (h : lh.Expand = some lh2) :
    0 ≤ lh.moveIdx ∧
    ∃ c1 c2, lh2.buckets =
      ((lh.buckets ++ [[newBucket lh.maxBucketRecords]]).set lh.buckets.length c1).set
        lh.moveIdx.toNat c2 := by
  unfold LinearHt.Expand at h
  simp only [] at h
  unfold LinearHt.moveIdx
  by_cases hc : lh.i = (lh.buckets.length : Int)
  · simp only [if_pos hc] at h ⊢
    split at h
    · rename_i h0
      refine ⟨h0, ?_⟩
      split at h
      · contradiction
      · split at h
        · contradiction
        · rename_i st _
          cases h
          exact ⟨st.nChain, st.nMoveChain, rfl⟩
    · contradiction
  · simp only [if_neg hc] at h ⊢
    split at h
    · rename_i h0
      refine ⟨h0, ?_⟩
      split at h
      · contradiction
      · split at h
        · contradiction
        · rename_i st _
          cases h
          exact ⟨st.nChain, st.nMoveChain, rfl⟩
    · contradiction

/-- The frame of the calls of `Expand` that complete: for every table state
satisfying the level invariant, the split index `len(buckets) - i/2` (old
length, updated `i`) is a valid index below the old length; whenever `Expand`
completes it has appended exactly one directory slot, every directory slot
other than the split index and the appended slot holds the same chain as
before, and `RecordNum()` is unchanged; and `Expand` completes on every table
of positive capacity whose chains are packed. -/
theorem expand_touches_two_chains (lh : LinearHt) (h : LevelOK lh) :
    (0 ≤ lh.moveIdx ∧ lh.moveIdx < (lh.buckets.length : Int)) ∧
    (∀ lh2, lh.Expand = some lh2 →
      lh2.BucketNum = lh.BucketNum + 1 ∧ lh2.RecordNum = lh.RecordNum ∧
      ∀ j : Nat, (j : Int) ≠ lh.moveIdx → j ≠ lh.buckets.length →
        lh2.buckets[j]? = lh.buckets[j]?) ∧
    (lh.WF → ∃ lh2, lh.Expand = some lh2) := by
  have hr := moveIdx_in_range lh h
  refine ⟨hr, ?_, ?_⟩
  · intro lh2 hE
    obtain ⟨-, hl, hn, -⟩ := Expand_fields lh lh2 hE
    obtain ⟨-, c1, c2, hb⟩ := Expand_buckets lh lh2 hE
    refine ⟨?_, hn, ?_⟩
    · simp only [LinearHt.BucketNum, hl]
      push_cast; rfl
    · intro j hj1 hj2
      have hne1 : lh.moveIdx.toNat ≠ j := by omega
      have hne2 : lh.buckets.length ≠ j := fun e => hj2 e.symm
      rw [hb, List.getElem?_set_ne hne1, List.getElem?_set_ne hne2]
      by_cases hlt : j < lh.buckets.length
      · rw [List.getElem?_append_left hlt]
      · have hgt : lh.buckets.length < j := by omega
        rw [List.getElem?_eq_none (by simp; omega), List.getElem?_eq_none (by omega)]
  · intro hwf
    obtain ⟨lh2, hE, -⟩ := Expand_WF lh hwf
    exact ⟨lh2, hE⟩

/-- The frame of `Expand` on the table holding `a`, `b`, `c` after its counter
was raised: the split index is 0, `Expand` completes, the table has three slots
and slot 1 still holds the chain with `b`. -/
theorem expand_touches_two_chains_witness :
    LevelOK tableABC.counted ∧
    tableABC.counted.moveIdx = 0 ∧
    (∃ lh2, tableABC.counted.Expand = some lh2 ∧ lh2.BucketNum = 3 ∧
      lh2.buckets[1]? = some [seg [rec1 98 2]]) ∧
    ((0 ≤ tableABC.counted.moveIdx ∧
        tableABC.counted.moveIdx < (tableABC.counted.buckets.length : Int)) ∧
      (∀ lh2, tableABC.counted.Expand = some lh2 →
        lh2.BucketNum = tableABC.counted.BucketNum + 1 ∧
        lh2.RecordNum = tableABC.counted.RecordNum ∧
        ∀ j : Nat, (j : Int) ≠ tableABC.counted.moveIdx →
          j ≠ tableABC.counted.buckets.length →
          lh2.buckets[j]? = tableABC.counted.buckets[j]?) ∧
      (tableABC.counted.WF → ∃ lh2, tableABC.counted.Expand = some lh2)) :=
  ⟨⟨1, by decide, by decide, by decide⟩, by decide,
    ⟨_, rfl, by decide, by decide⟩,
    expand_touches_two_chains tableABC.counted ⟨1, by decide, by decide, by decide⟩⟩

/-- C18.  `Expand` touches only two chains: the code does not complete the
call.  The table reached by the inserts of `c`, `e`, `g` and the deletion of
`g` satisfies the level invariant and its split index is 0; the chain there is
one full segment without successor, so the walk of `Expand` handles its two
records and then steps onto the missing segment and fails.  The same failure
ends the run when a later insert triggers `Expand`. -/
theorem expand_fails_on_full_tail :
    (newLinearHt 2).calls [Call.Insert (rec1 99 1), Call.Insert (rec1 101 2),
      Call.Insert (rec1 103 3), Call.Delete [103]] = some tableCEfull ∧
    LevelOK tableCEfull ∧
    tableCEfull.moveIdx = 0 ∧
    tableCEfull.Expand = none ∧
    tableCEfull.Insert (rec1 98 4) = some
      { tableCEfull with recordNum := 3, buckets := [[seg [rec1 99 1, rec1 101 2]],
          [seg [rec1 98 4]]] } ∧
    (newLinearHt 2).calls [Call.Insert (rec1 99 1), Call.Insert (rec1 101 2),
      Call.Insert (rec1 103 3), Call.Delete [103], Call.Insert (rec1 98 4),
      Call.Insert (rec1 100 5)] = none :=
  ⟨by decide, ⟨1, by decide, by decide, by decide⟩, by decide, by decide, by decide,
    by decide⟩

/-! ## The merge branch at capacity 2 -/

/-- The flag that `Bucket.DeleteFrom` returns is true exactly when the branch
taken is not `absent`, and both fail together. -/
theorem DeleteFrom_flag (c : Chain) (prev : Bucket) (key : Key) :
    (Bucket.DeleteFrom prev c key).map Prod.snd =
      (Bucket.DeleteFromBranch prev c key).map
        (fun br => decide (br ≠ DeleteBranch.absent)) := by
  induction c generalizing prev with
  | nil => rfl
  | cons b rest ih =>
    unfold Bucket.DeleteFrom Bucket.DeleteFromBranch
    cases hr : Bucket.removeKey b.records key with
    | none => rfl
    | some o =>
      cases o with
      | none =>
        simp only []
        rw [← ih b]
        cases Bucket.DeleteFrom b rest key with
        | none => rfl
        | some res => rfl
      | some rs =>
        simp only []
        split
        · rfl
        · split <;> rfl

theorem Delete_flag (c : Chain) (key : Key) :
    (Bucket.Delete c key).map Prod.snd =
      (Bucket.DeleteBranch c key).map (fun br => decide (br ≠ DeleteBranch.absent)) := by
  cases c with
  | nil => rfl
  | cons b rest =>
    cases hr : Bucket.removeKey b.records key with
    | none => simp [Bucket.Delete, Bucket.DeleteBranch, hr]
    | some o =>
      cases o with
      | none =>
        simp only [Bucket.Delete, Bucket.DeleteBranch, hr]
        exact DeleteFrom_flag rest b key
      | some rs => simp [Bucket.Delete, Bucket.DeleteBranch, hr]

theorem merge_guard_false (n : Nat) (rs : List Item) (h : rs.length ≠ 0) :
    ¬ ((n : Int) + (rs.length : Int) < mergeThreshold 2) := by
  have ht : mergeThreshold 2 = 1 := by decide
  rw [ht]
  omega

theorem DeleteFromBranch_not_merged (c : Chain) (prev : Bucket) (key : Key)
    (h : ∀ b ∈ c, b.maxBucketRecords = 2) :
    Bucket.DeleteFromBranch prev c key ≠ some DeleteBranch.merged := by
  induction c generalizing prev with
  | nil => simp [Bucket.DeleteFromBranch]
  | cons b rest ih =>
    have hb : b.maxBucketRecords = 2 := h b (List.mem_cons_self b rest)
    have hrest : ∀ d ∈ rest, d.maxBucketRecords = 2 :=
      fun d hd => h d (List.mem_cons_of_mem _ hd)
    unfold Bucket.DeleteFromBranch
    cases hr : Bucket.removeKey b.records key with
    | none => simp
    | some o =>
      cases o with
      | none => exact ih b hrest
      | some rs =>
        simp only []
        by_cases hz : rs.length = 0
        · rw [if_pos hz]; simp
        · rw [if_neg hz, hb, if_neg (merge_guard_false prev.records.length rs hz)]
          simp

theorem removeKey_keeps_records (l rs : List Item) (key : Key) (h : OnlyRecords l)
    (hr : Bucket.removeKey l key = some (some rs)) : OnlyRecords rs := by
  induction l generalizing rs with
  | nil => simp [Bucket.removeKey] at hr
  | cons x t ih =>
    obtain ⟨r, hx⟩ := h x (List.mem_cons_self x t)
    subst hx
    have ht := OnlyRecords_tail _ t h
    unfold Bucket.removeKey at hr
    by_cases hk : r.Key = key
    · rw [if_pos hk] at hr
      simp only [Option.some.injEq] at hr
      rw [← hr]; exact ht
    · rw [if_neg hk] at hr
      cases hrec : Bucket.removeKey t key with
      | none => rw [hrec] at hr; contradiction
      | some o =>
        cases o with
        | none => rw [hrec] at hr; simp at hr
        | some t2 =>
          rw [hrec] at hr
          simp only [Option.some.injEq] at hr
          rw [← hr]
          intro y hy
          rcases List.mem_cons.mp hy with hy | hy
          · exact ⟨r, hy⟩
          · exact ih t2 ht hrec y hy

theorem DeleteFrom_keeps_records (c : Chain) (prev : Bucket) (key : Key) (c2 : Chain)
    (f : Bool) (hcap : ∀ b ∈ c, b.maxBucketRecords = 2)
    (hp : OnlyRecords prev.records) (h : ∀ b ∈ c, OnlyRecords b.records)
    (hd : Bucket.DeleteFrom prev c key = some (c2, f)) :
    ∀ b ∈ c2, OnlyRecords b.records := by
  induction c generalizing prev c2 with
  | nil =>
    simp only [Bucket.DeleteFrom, Option.some.injEq, Prod.mk.injEq] at hd
    intro b hb
    rw [← hd.1] at hb
    simp only [List.mem_singleton] at hb
    rw [hb]; exact hp
  | cons b rest ih =>
    have hb := h b (List.mem_cons_self b rest)
    have hbcap : b.maxBucketRecords = 2 := hcap b (List.mem_cons_self b rest)
    have hrest : ∀ d ∈ rest, OnlyRecords d.records :=
      fun d hd => h d (List.mem_cons_of_mem _ hd)
    have hrcap : ∀ d ∈ rest, d.maxBucketRecords = 2 :=
      fun d hd => hcap d (List.mem_cons_of_mem _ hd)
    unfold Bucket.DeleteFrom at hd
    cases hr : Bucket.removeKey b.records key with
    | none => rw [hr] at hd; contradiction
    | some o =>
      cases o with
      | none =>
        rw [hr] at hd
        simp only [] at hd
        cases hrec : Bucket.DeleteFrom b rest key with
        | none => rw [hrec] at hd; contradiction
        | some res =>
          obtain ⟨c3, f3⟩ := res
          rw [hrec] at hd
          simp only [Option.some.injEq, Prod.mk.injEq] at hd
          intro d hdm
          rw [← hd.1] at hdm
          rcases List.mem_cons.mp hdm with hdm | hdm
          · rw [hdm]; exact hp
          · rw [hd.2] at hrec
            exact ih b c3 hrcap hb hrest hrec d hdm
      | some rs =>
        rw [hr] at hd
        simp only [] at hd
        have hrs := removeKey_keeps_records b.records rs key hb hr
        by_cases hz : rs.length = 0
        · rw [if_pos hz] at hd
          simp only [Option.some.injEq, Prod.mk.injEq] at hd
          intro d hdm
          rw [← hd.1] at hdm
          rcases List.mem_cons.mp hdm with hdm | hdm
          · rw [hdm]; exact hp
          · exact hrest d hdm
        · rw [if_neg hz, hbcap, if_neg (merge_guard_false prev.records.length rs hz)] at hd
          simp only [Option.some.injEq, Prod.mk.injEq] at hd
          intro d hdm
          rw [← hd.1] at hdm
          rcases List.mem_cons.mp hdm with hdm | hdm
          · rw [hdm]; exact hp
          · rcases List.mem_cons.mp hdm with hdm | hdm
            · rw [hdm]; exact hrs
            · exact hrest d hdm

theorem Delete_keeps_records (c : Chain) (key : Key) (c2 : Chain) (f : Bool)
    (hcap : ∀ b ∈ c, b.maxBucketRecords = 2) (h : ∀ b ∈ c, OnlyRecords b.records)
    (hd : Bucket.Delete c key = some (c2, f)) : ∀ b ∈ c2, OnlyRecords b.records := by
  cases c with
  | nil =>
    simp only [Bucket.Delete, Option.some.injEq, Prod.mk.injEq] at hd
    intro b hb
    rw [← hd.1] at hb
    simp at hb
  | cons b rest =>
    have hb := h b (List.mem_cons_self b rest)
    have hrest : ∀ d ∈ rest, OnlyRecords d.records :=
      fun d hd => h d (List.mem_cons_of_mem _ hd)
    have hrcap : ∀ d ∈ rest, d.maxBucketRecords = 2 :=
      fun d hd => hcap d (List.mem_cons_of_mem _ hd)
    cases hr : Bucket.removeKey b.records key with
    | none => simp [Bucket.Delete, hr] at hd
    | some o =>
      cases o with
      | none =>
        simp only [Bucket.Delete, hr] at hd
        exact DeleteFrom_keeps_records rest b key c2 f hrcap hb hrest hd
      | some rs =>
        simp only [Bucket.Delete, hr, Option.some.injEq, Prod.mk.injEq] at hd
        intro d hdm
        rw [← hd.1] at hdm
        rcases List.mem_cons.mp hdm with hdm | hdm
        · rw [hdm]; exact removeKey_keeps_records b.records rs key hb hr
        · exact hrest d hdm

/-- C20.  At capacity 2 the merge branch is dead: the threshold
`int(2 * 0.7)` is 1; after a removal that leaves a non-empty segment the
predecessor's count plus the segment's count is at least 1, so the test of the
merge branch is false; and for every chain whose segments all have capacity 2
and every key, `Bucket.Delete` does not take the merge branch.  The branch
reported agrees with the flag that `Bucket.Delete` returns, and no list
element, which the merge branch pushes, appears in a chain of records. -/
theorem merge_branch_dead_at_capacity_two :
    mergeThreshold 2 = 1 ∧
    (∀ (prev : Bucket) (rs : List Item), rs.length ≠ 0 →
      ¬ ((prev.records.length : Int) + (rs.length : Int) < mergeThreshold 2)) ∧
    (∀ (c : Chain) (key : Key), (∀ b ∈ c, b.maxBucketRecords = 2) →
      Bucket.DeleteBranch c key ≠ some DeleteBranch.merged) ∧
    (∀ (c : Chain) (key : Key),
      (Bucket.Delete c key).map Prod.snd =
        (Bucket.DeleteBranch c key).map (fun br => decide (br ≠ DeleteBranch.absent))) ∧
    (∀ (c : Chain) (key : Key) (c2 : Chain) (f : Bool),
      (∀ b ∈ c, b.maxBucketRecords = 2) → (∀ b ∈ c, OnlyRecords b.records) →
      Bucket.Delete c key = some (c2, f) → ∀ b ∈ c2, OnlyRecords b.records) := by
  refine ⟨by decide, fun prev rs h => merge_guard_false prev.records.length rs h, ?_,
    Delete_flag, Delete_keeps_records⟩
  intro c key h
  cases c with
  | nil => simp [Bucket.DeleteBranch]
  | cons b rest =>
    have hrest : ∀ d ∈ rest, d.maxBucketRecords = 2 :=
      fun d hd => h d (List.mem_cons_of_mem _ hd)
    cases hr : Bucket.removeKey b.records key with
    | none => simp [Bucket.DeleteBranch, hr]
    | some o =>
      cases o with
      | none =>
        simp only [Bucket.DeleteBranch, hr]
        exact DeleteFromBranch_not_merged rest b key hrest
      | some rs => simp [Bucket.DeleteBranch, hr]

/-- The dead merge branch on the chain with the segments `[a]` and `[c, e]` of
capacity 2: the deletion of `c` leaves `[e]` after a predecessor with one
record and keeps the segment; on the chain `chain45` of capacity 3 the same
situation takes the merge branch. -/
theorem merge_branch_dead_at_capacity_two_witness :
    (∀ b ∈ [seg [rec1 97 1], seg [rec1 99 2, rec1 101 3]], b.maxBucketRecords = 2) ∧
    Bucket.DeleteBranch [seg [rec1 97 1], seg [rec1 99 2, rec1 101 3]] [99]
      = some DeleteBranch.kept ∧
    Bucket.DeleteBranch [seg [rec1 97 1], seg [rec1 99 2, rec1 101 3]] [99]
      ≠ some DeleteBranch.merged ∧
    Bucket.DeleteBranch chain45 [4] = some DeleteBranch.merged :=
  ⟨by decide, by decide,
    merge_branch_dead_at_capacity_two.2.2.1
      [seg [rec1 97 1], seg [rec1 99 2, rec1 101 3]] [99] (by decide),
    by decide⟩

/-! ## Further runs on which the code fails -/

/-- C12.  Merge rule of `Bucket.Delete`: the code does not keep the merged
records findable.  The chain `chain45` of capacity 3 is reached from a fresh
segment by five inserts and three deletions; removing the key 4 leaves the
non-empty second segment with its empty predecessor, and 0 + 1 is below
`int(3*0.7) = 2`.  `Delete` pushes the list element instead of the record into
the predecessor, and `Find` of the key 5 then fails its type assertion. -/
theorem merge_pushes_elements_not_records :
    Bucket.calls [newBucket 3]
      [BucketCall.Insert (rec1 1 1), BucketCall.Insert (rec1 2 2),
       BucketCall.Insert (rec1 3 3), BucketCall.Insert (rec1 4 4),
       BucketCall.Insert (rec1 5 5), BucketCall.Delete [1], BucketCall.Delete [2],
       BucketCall.Delete [3]] = some chain45 ∧
    Bucket.Find chain45 [5] = some (Value.dyn 5) ∧
    mergeThreshold 3 = 2 ∧
    Bucket.Delete chain45 [4] = some (chainE5, true) ∧
    chainE5 ≠ [seg3 [Item.record (rec1 5 5)]] ∧
    Bucket.Find chainE5 [5] = none := by
  decide

/-- C14.  `BucketRecords` on every integer: the code fails below zero.  On the
table with three slots the index 3 is reported as out of range and the index 1
gives the two records of that chain, but the index -1 passes the test
`i > len(lh.buckets)-1` and the directory access fails. -/
theorem bucket_records_fails_below_zero :
    tableABCD.BucketRecords 3 = some (-1) ∧
    tableABCD.BucketRecords 1 = some 2 ∧
    tableABCD.BucketRecords (-1) = none ∧
    (newLinearHt 2).BucketRecords (-1) = none := by
  decide

/-- C16.  Directory index in range: the code leaves the range for a negative
hash.  The table with three slots and level 4 satisfies the level invariant;
the key of twelve bytes `a` hashes to a negative number with remainder -3, which
is the index that `Find` and `Insert` use, and the directory access fails. -/
theorem index_out_of_range_for_negative_hash :
    LevelOK tableABCD ∧
    hashFunc keyA12 = -3595093842338326191 ∧
    tableABCD.bucketIdx keyA12 = some (-3) ∧
    tableABCD.bucketAt (-3) = none ∧
    tableABCD.Find keyA12 = none ∧
    tableABCD.place { Key := keyA12, Value := Value.dyn 5 } = none :=
  ⟨⟨2, by decide, by decide, by decide⟩, by decide, by decide, by decide, by decide,
    by decide⟩

/-- C17.  Addressing after `Expand`: the code breaks it.  The table `tableN`,
reached by one insert, satisfies the level invariant and segment fullness and
holds its record in the chain that `Find` addresses; after `Expand` the record
is still in chain 0 but `Find` computes the index -2 for its key, whose hash is
negative.  The table `tableAC`, reached by three inserts and a deletion,
satisfies the three conditions as well, and `Expand` fails on it: the split
chain is one full segment without successor. -/
theorem expand_breaks_addressing :
    ((newLinearHt 2).calls [Call.Insert { Key := keyA10C, Value := Value.dyn 1 }]
        = some tableN ∧
      LevelOK tableN ∧ (∀ c ∈ tableN.buckets, Chain.NonLastFull 2 c) ∧ tableN.Addressed ∧
      tableN.Expand = some tableNE ∧
      tableNE.bucketIdx keyA10C = some (-2) ∧ tableNE.Find keyA10C = none ∧
      ¬ tableNE.Addressed) ∧
    ((newLinearHt 2).calls [Call.Insert (rec1 97 1), Call.Insert (rec1 99 2),
        Call.Insert (rec1 101 3), Call.Delete [101]] = some tableAC ∧
      LevelOK tableAC ∧ (∀ c ∈ tableAC.buckets, Chain.NonLastFull 2 c) ∧ tableAC.Addressed ∧
      tableAC.Expand = none) :=
  ⟨⟨by decide, ⟨1, by decide, by decide, by decide⟩, by decide, by decide, by decide,
      by decide, by decide, by decide⟩,
    by decide, ⟨1, by decide, by decide, by decide⟩, by decide, by decide, by decide⟩

/-- C19.  Segment walks stay on the chain: the code lets them run off.  After
the inserts of `a`, `c`, `e` and the deletion of `e`, chain 0 is one segment
with two records and no successor, because the splice of the emptied segment
copies its nil link; the next insert with an even hash steps onto the missing
segment in `Bucket.Insert` and fails. -/
theorem full_segment_without_successor :
    (newLinearHt 2).calls [Call.Insert (rec1 97 1), Call.Insert (rec1 99 2),
      Call.Insert (rec1 101 3), Call.Delete [101]] = some tableAC ∧
    tableAC.buckets[0]? = some [seg [rec1 97 1, rec1 99 2]] ∧
    ¬ Chain.FullHasNext [seg [rec1 97 1, rec1 99 2]] ∧
    Bucket.Insert [seg [rec1 97 1, rec1 99 2]] (Item.record (rec1 103 4)) = none ∧
    tableAC.Insert (rec1 103 4) = none := by
  decide

end LinearHash
